import Mathlib

/-!
# Raxis ECS — formal model and verification

A shallow embedding of the core of the raxis Entity-Component-System
runtime, translated from the TypeScript sources:

* `src/unnamed/part_001` (`event.ts`): `EventHandler`, `EventReader`,
  `EventWriter`;
* `src/src/main.ts`: the `ECS` class (`update`, `spawn`, `destroy`,
  `query`, `addComponentType`, `insertLocalResource`, …) and `TreeNode`;
* `src/lib/engine/entity.ts`: the `Entity` facade (`insert`, `replace`,
  `delete`, `has`, parent/child maintenance);
* `src/lib/engine/query.ts`: `QueryHandler` (`validateEntity`, `match`,
  `addEntity`, `removeEntity`, `replace`, `affectedBy`);
* `src/lib/structures/mempool.ts`: `MemPool`.

Component/event/resource type keys are modelled as `Nat` (the runtime uses
constructor identity as key; any countable key set is equivalent).  Payload
and component data are `Nat`-valued.  JS sparse arrays and `Map`s are
modelled as association lists (`List (Nat × _)`) with first-match lookup,
matching JS reference semantics for the operations the sources perform.
`Array.prototype.forEach` over an array that the loop body mutates is
modelled index-by-index against the *current* list, with the iteration
bound captured at entry — exactly the ECMAScript semantics the sources
rely on (elements shifted below the cursor get skipped).
-/

namespace Raxis

/-! ## Event bus (`event.ts`) -/

/-- One record in `EventHandler.data`: `{ body, gen, deadline }` as pushed
by `EventHandler.write` (body is `null` when the writer sent no payload). -/
structure EventRec where
  body : Option Nat
  gen : Nat
  deadline : Nat
  deriving Repr, DecidableEq

/-- State of one `EventHandler`: the pending record list, the generation
counter, and the cursor (`gen` field) of every registered `EventReader`,
listed in registration order. -/
structure EventHandler where
  data : List EventRec
  gen : Nat
  readers : List Nat
  deriving Repr, DecidableEq

/-- `EventHandler.write` at current frame `frame`: increments the
generation and appends a record with deadline `frame + 2`. -/
def EventHandler.write (h : EventHandler) (frame : Nat) (payload : Option Nat) :
    EventHandler :=
  { h with
    gen := h.gen + 1
    data := h.data ++ [⟨payload, h.gen + 1, frame + 2⟩] }

/-- `EventHandler.setReadersGen`: every reader's cursor is set to `gen`
(the code stashes `this.gen`, overwrites it, has each reader `clear()`,
then restores it — net effect: every cursor becomes `gen`). -/
def EventHandler.setReadersGen (h : EventHandler) (g : Nat) : EventHandler :=
  { h with readers := h.readers.map fun _ => g }

/-- One step of the pruning `forEach` in `ECS.update`, at index `k`
against the current `data` list: an expired record (`deadline < frame`)
triggers `setReadersGen d.gen` and `data.splice(k, 1)`. -/
def pruneAt (frame : Nat) (h : EventHandler) (k : Nat) : EventHandler :=
  match h.data.get? k with
  | none => h
  | some d =>
      if frame ≤ d.deadline then h
      else
        { data := h.data.eraseIdx k
          gen := h.gen
          readers := h.readers.map fun _ => d.gen }

/-- The pruning `forEach` from index `k` with `remaining` probes left
(the ECMAScript iteration bound is captured before the loop starts). -/
def pruneFrom (frame : Nat) (k remaining : Nat) (h : EventHandler) : EventHandler :=
  match remaining with
  | 0 => h
  | r + 1 => pruneFrom frame (k + 1) r (pruneAt frame h k)

/-- The per-handler pruning pass run by `ECS.update` before the frame
counter advances: `handler.data.forEach((d, i) => { … splice(i, 1) })`. -/
def EventHandler.prune (frame : Nat) (h : EventHandler) : EventHandler :=
  pruneFrom frame 0 h.data.length h

/-- `ECS` event-bus view: the frame counter and every registered handler. -/
structure EvState where
  frame : Nat
  handlers : List EventHandler
  deriving Repr, DecidableEq

/-- The frame-boundary phase of `ECS.update`: prune every handler at the
pre-increment frame count, then advance the frame counter. -/
def EvState.updateBoundary (s : EvState) : EvState :=
  { frame := s.frame + 1
    handlers := s.handlers.map (EventHandler.prune s.frame) }

/-- `new EventReader(handler)` (as performed by `ECS.getEventReader` on a
context miss): the cursor starts at the handler's current generation; the
reader is appended to `handler.readers`.  Returns the reader's index. -/
def EventHandler.newReader (h : EventHandler) : EventHandler × Nat :=
  ({ h with readers := h.readers ++ [h.gen] }, h.readers.length)

/-- Cursor of reader `i` (readers are identified by registration index). -/
def EventHandler.cursor (h : EventHandler) (i : Nat) : Nat :=
  (h.readers.get? i).getD 0

/-- `EventReader.available()`: cursor strictly behind the handler
generation and at least one record pending. -/
def EventHandler.available (h : EventHandler) (i : Nat) : Bool :=
  decide (h.cursor i < h.gen) && decide (0 < h.data.length)

/-- `EventReader.empty()`. -/
def EventHandler.readerEmpty (h : EventHandler) (i : Nat) : Bool :=
  decide (h.gen ≤ h.cursor i) || decide (h.data.length = 0)

/-- `EventReader.get()`: all records with generation above the cursor
(payloads cloned — cloning a plain payload is the identity here), then the
cursor advances to the handler generation. -/
def EventHandler.readerGet (h : EventHandler) (i : Nat) :
    List (Option Nat) × EventHandler :=
  if h.readerEmpty i then ([], h)
  else
    ((h.data.filter fun d => h.cursor i < d.gen).map (fun d => d.body),
      { h with readers := h.readers.set i h.gen })

/-- Iterated frame boundaries for a single handler: prune at frames
`frame, frame+1, …, frame+k-1` (what `k` consecutive `ECS.update` calls do
to this handler before their main systems run). -/
def pruneSeq (frame k : Nat) (h : EventHandler) : EventHandler :=
  match k with
  | 0 => h
  | k + 1 => pruneSeq (frame + 1) k (EventHandler.prune frame h)

/-! ## Component store, queries, entities (`main.ts`, `entity.ts`, `query.ts`) -/

/-- JS `Map.get`: first-match lookup in an association list (the setters
below keep keys unique). -/
def tblGet (l : List (Nat × α)) (k : Nat) : Option α :=
  match l with
  | [] => none
  | p :: rest => if p.1 = k then some p.2 else tblGet rest k

/-- A component instance: its type key and its data. -/
structure Comp where
  ctype : Nat
  val : Nat
  deriving Repr, DecidableEq

/-- One component type's sparse slot array, entity id ↦ instance. -/
abbrev Slots := List (Nat × Comp)

/-- `ECS.components`: registered type ↦ slot array. -/
abbrev Store := List (Nat × Slots)

/-- Slot read `components.get(t)[e]`: `none` both when the type is
unregistered (the JS code would fault on `!` there; all uses below are
guarded by registration) and when the slot is empty. -/
def slotGet (st : Store) (t e : Nat) : Option Comp :=
  (tblGet st t).bind fun s => tblGet s e

/-- Registration test `ECS.components.has(t)`. -/
def registered (st : Store) (t : Nat) : Bool :=
  (tblGet st t).isSome

/-- Update the slot array of type `t` (a no-op when `t` is unregistered,
mirroring that every write is reached only behind a registration check). -/
def storeModify (st : Store) (t : Nat) (f : Slots → Slots) : Store :=
  st.map fun p => if p.1 = t then (p.1, f p.2) else p

/-- `components.get(t)[e] = c`. -/
def storeSet (st : Store) (t e : Nat) (c : Comp) : Store :=
  storeModify st t fun s => (e, c) :: s.filter fun p => p.1 ≠ e

/-- `delete components.get(t)[e]`. -/
def storeDel (st : Store) (t e : Nat) : Store :=
  storeModify st t fun s => s.filter fun p => p.1 ≠ e

/-- A `With`/`Without` component type modifier (`true` = `With`). -/
abbrev Mod := Bool × Nat

/-- A query definition: ordered required types and ordered modifiers. -/
structure QueryDef where
  types : List Nat
  mods : List Mod
  deriving Repr, DecidableEq

/-- `QueryHandler`: its definition, the matching entity set (a JS `Set`,
kept as an insertion-ordered duplicate-free list), and the parallel
snapshot of queried components (`this.components`). -/
structure QueryHandler where
  qdef : QueryDef
  entities : List Nat
  comps : Store
  deriving Repr, DecidableEq

/-- `QueryHandler.affectedBy(type)`. -/
def QueryHandler.affectedBy (q : QueryHandler) (t : Nat) : Bool :=
  q.qdef.types.contains t || (q.qdef.mods.map Prod.snd).contains t

/-- `QueryHandler.addEntity`: add to the set and snapshot every required
component from the store. -/
def QueryHandler.addEntity (q : QueryHandler) (st : Store) (e : Nat) : QueryHandler :=
  { q with
    entities := q.entities ++ [e]
    comps := q.qdef.types.foldl
      (fun acc t =>
        match slotGet st t e with
        | some c => storeSet acc t e c
        | none => acc) q.comps }

/-- `QueryHandler.removeEntity`. -/
def QueryHandler.removeEntity (q : QueryHandler) (e : Nat) : QueryHandler :=
  { q with
    entities := q.entities.filter fun x => x ≠ e
    comps := q.qdef.types.foldl (fun acc t => storeDel acc t e) q.comps }

/-- `QueryHandler.replace`: refresh the snapshot slot only. -/
def QueryHandler.replaceComp (q : QueryHandler) (e : Nat) (c : Comp) : QueryHandler :=
  { q with comps := storeSet q.comps c.ctype e c }

/-- The fail-fast modifier scan of `QueryHandler.validateEntity`:
`some true` = all modifiers passed, `some false` = a modifier failed. -/
def modsPass (st : Store) (e : Nat) : List Mod → Bool
  | [] => true
  | (m, t) :: rest =>
      if m then
        if (slotGet st t e).isSome then modsPass st e rest else false
      else
        if (slotGet st t e).isSome then false else modsPass st e rest

/-- The fail-fast required-type scan of `QueryHandler.validateEntity`. -/
def typesPass (st : Store) (e : Nat) : List Nat → Bool
  | [] => true
  | t :: rest => if (slotGet st t e).isSome then typesPass st e rest else false

/-- `QueryHandler.validateEntity(eid)`: re-check all modifiers then all
required types; on the first failure remove the entity if present, on full
success add it if absent. -/
def QueryHandler.validateEntity (q : QueryHandler) (st : Store) (e : Nat) : QueryHandler :=
  if modsPass st e q.qdef.mods then
    if typesPass st e q.qdef.types then
      if q.entities.contains e then q else q.addEntity st e
    else if q.entities.contains e then q.removeEntity e else q
  else if q.entities.contains e then q.removeEntity e else q

/-- `QueryHandler.match(query)`: required-type lists compared index by
index, then modifier lists compared by length and by membership of each of
this handler's modifiers in the other list (order-insensitive). -/
def QueryHandler.matchDef (d q : QueryDef) : Bool :=
  decide (d.types = q.types) && decide (d.mods.length = q.mods.length) &&
    d.mods.all fun m => q.mods.contains m

/-- The per-entity tree node (`TreeNode`). -/
structure TreeNode where
  parent : Option Nat
  children : List Nat
  deriving Repr, DecidableEq

/-- The `number-allocator` instance.  The library itself ships outside
this repository; modelled from the spec: `allocate()` prefers reusing
freed IDs over growing the allocation frontier, and never returns an ID
currently outstanding. -/
structure Allocator where
  freed : List Nat
  frontier : Nat
  deriving Repr, DecidableEq

def Allocator.alloc (a : Allocator) : Nat × Allocator :=
  match a.freed with
  | c :: rest => (c, { a with freed := rest })
  | [] => (a.frontier, { a with frontier := a.frontier + 1 })

def Allocator.free (a : Allocator) (e : Nat) : Allocator :=
  { a with freed := e :: a.freed }

/-- The core `ECS` state for entity/component/query claims.  `roots` is
the root-entity bookkeeping behind `ECS.addRoot`/`ECS.removeRoot`;
modelled from the spec: those two methods are called by `Entity.parent`
but are absent from the snapshot, and the spec gives the hierarchy no
observable state beyond per-node parent/children links, so they only
maintain this list. -/
structure ECSCore where
  components : Store
  entities : List Nat
  nodes : List (Nat × TreeNode)
  alloc : Allocator
  queries : List QueryHandler
  roots : List Nat
  deriving Repr, DecidableEq

/-- `this.nodes.get(eid)` with the JS `!` assertion: all reachable uses
have the node present (nodes are created on spawn and never deleted). -/
def ECSCore.node (s : ECSCore) (e : Nat) : TreeNode :=
  (tblGet s.nodes e).getD ⟨none, []⟩

def ECSCore.setNode (s : ECSCore) (e : Nat) (n : TreeNode) : ECSCore :=
  { s with nodes := (e, n) :: s.nodes.filter fun p => p.1 ≠ e }

/-- `ECS.addComponentType(type)`: unconditionally installs a fresh empty
slot array (the source performs no duplicate check and never throws). -/
def ECSCore.addComponentType (s : ECSCore) (t : Nat) : ECSCore :=
  { s with components := (t, ([] : Slots)) :: s.components.filter fun p => p.1 ≠ t }

/-- `Entity.has(type)`: `none` models the `UnregisteredType` throw. -/
def ECSCore.hasComp (s : ECSCore) (e t : Nat) : Option Bool :=
  match tblGet s.components t with
  | none => none
  | some slots => some (tblGet slots e).isSome

/-- Phase 1 of `Entity.insert`: store each component in sequence, aborting
with the partially-written store on an unregistered type or a duplicate
(the JS exception propagates after earlier components were stored). -/
def insertStore (st : Store) (e : Nat) : List Comp → Store × Option String
  | [] => (st, none)
  | c :: rest =>
      if ¬ registered st c.ctype then (st, some "UnregisteredType")
      else if (slotGet st c.ctype e).isSome then (st, some "DuplicateComponent")
      else insertStore (storeSet st c.ctype e c) e rest

/-- Phase 2 of `Entity.insert`: for each inserted component, re-validate
the entity against every handler affected by its type. -/
def notifyInsert (qs : List QueryHandler) (st : Store) (e : Nat) (ts : List Nat) :
    List QueryHandler :=
  ts.foldl
    (fun acc t => acc.map fun q => if q.affectedBy t then q.validateEntity st e else q)
    qs

/-- `Entity.insert(...comps)`; the error, if any, is reported alongside
the state the exception leaves behind. -/
def ECSCore.insertComps (s : ECSCore) (e : Nat) (cs : List Comp) :
    ECSCore × Option String :=
  match insertStore s.components e cs with
  | (st, some err) => ({ s with components := st }, some err)
  | (st, none) =>
      ({ s with
          components := st
          queries := notifyInsert s.queries st e (cs.map Comp.ctype) }, none)

/-- `Entity.replace(comp)`: overwrite the slot unconditionally, then have
every affected handler refresh its snapshot (no re-validation).  `none`
models the `UnregisteredType` throw. -/
def ECSCore.replaceComp (s : ECSCore) (e : Nat) (c : Comp) : Option ECSCore :=
  if ¬ registered s.components c.ctype then none
  else
    let st := storeSet s.components c.ctype e c
    some { s with
      components := st
      queries := s.queries.map fun q =>
        if q.affectedBy c.ctype then q.replaceComp e c else q }

/-- Phase 1 of `Entity.delete`: clear each slot in sequence (component
destroy hooks carry no behavior in this model), aborting on an
unregistered type. -/
def deleteStore (st : Store) (e : Nat) : List Nat → Store × Option String
  | [] => (st, none)
  | t :: rest =>
      if ¬ registered st t then (st, some "UnregisteredType")
      else deleteStore (storeDel st t e) e rest

/-- `Entity.delete(...types)`. -/
def ECSCore.deleteComps (s : ECSCore) (e : Nat) (ts : List Nat) :
    ECSCore × Option String :=
  match deleteStore s.components e ts with
  | (st, some err) => ({ s with components := st }, some err)
  | (st, none) =>
      ({ s with
          components := st
          queries := notifyInsert s.queries st e ts }, none)

/-- `ECS.spawn(...comps)`: allocate an ID, register it live with a fresh
tree node, then insert the given components through the entity facade. -/
def ECSCore.spawn (s : ECSCore) (cs : List Comp) : ECSCore × Nat × Option String :=
  let (eid, al) := s.alloc.alloc
  let s := { s with alloc := al, entities := s.entities ++ [eid] }
  let s := s.setNode eid ⟨none, []⟩
  let (s, err) := s.insertComps eid cs
  (s, eid, err)

/-- First handler index whose definition `match`es the input (the
`for … of this.queries.entries()` scan). -/
def findQuery (qs : List QueryHandler) (d : QueryDef) : Option Nat :=
  match qs with
  | [] => none
  | q :: rest =>
      if QueryHandler.matchDef q.qdef d then some 0
      else (findQuery rest d).map (· + 1)

/-- `ECS.query(types, ...mods)` (handler part): reuse the first structural
match, otherwise create a fresh handler and seed it by validating every
live entity.  Returns the handler's index (the result views of every
system context are all backed by the handler at this index). -/
def ECSCore.query (s : ECSCore) (d : QueryDef) : ECSCore × Nat :=
  match findQuery s.queries d with
  | some i => (s, i)
  | none =>
      let q0 : QueryHandler := ⟨d, [], d.types.map fun t => (t, [])⟩
      let q := s.entities.foldl (fun q e => q.validateEntity s.components e) q0
      ({ s with queries := s.queries ++ [q] }, s.queries.length)

/-- Brute-force recomputation: does `e` hold every required type and
satisfy every modifier of `d`, directly against the store? -/
def bruteMatch (st : Store) (d : QueryDef) (e : Nat) : Bool :=
  (d.mods.all fun m => (slotGet st m.2 e).isSome = m.1) &&
    (d.types.all fun t => (slotGet st t e).isSome)

/-! ### Entity destruction (`ECS.destroy`, `TreeNode.onDestroy`,
`Entity.removeChild` / `Entity.addChild` / `Entity.parent`)

The mutual recursion below is fuelled; every cross-call spends one unit.
`ECS.destroy` iterates `node.children` with `forEach` while the cascade
mutates that very array (each destroyed child detaches itself), so the
loop probes the *current* list at successive indices with the bound
captured at entry. -/

/-- `forEach`-with-live-array combinator: probe indices `k, k+1, …` for
`remaining` steps, applying `step` to the element currently at the probed
index when one exists. -/
def liveFold (step : ECSCore → Nat → ECSCore) (kids : ECSCore → List Nat) :
    Nat → Nat → ECSCore → ECSCore
  | _, 0, s => s
  | k, r + 1, s =>
      let cur := kids s
      let s := match cur.get? k with
        | some c => step s c
        | none => s
      liveFold step kids (k + 1) r s

mutual

/-- `ECS.destroy(eid, force)`. -/
def ECSCore.destroy (fuel : Nat) (s : ECSCore) (eid : Nat) (force : Bool) : ECSCore :=
  match fuel with
  | 0 => s
  | fuel + 1 =>
      if ¬ s.entities.contains eid ∧ ¬ force then s
      else
        let s :=
          if (s.node eid).children.length ≠ 0 then
            liveFold (fun s c => ECSCore.destroy fuel s c false)
              (fun s => (s.node eid).children) 0 (s.node eid).children.length s
          else s
        let s := { s with
          entities := s.entities.filter fun x => x ≠ eid
          alloc := s.alloc.free eid }
        let s := ECSCore.nodeOnDestroy fuel s eid
        let s := { s with
          components := s.components.map fun (p : Nat × Slots) =>
            (p.1, p.2.filter fun (c : Nat × Comp) => c.1 ≠ eid) }
        { s with
          queries := s.queries.map fun (q : QueryHandler) =>
            if q.entities.contains eid then q.removeEntity eid else q }

/-- `TreeNode.onDestroy`: destroy the remaining children (again a live
`forEach`), then detach from the parent. -/
def ECSCore.nodeOnDestroy (fuel : Nat) (s : ECSCore) (eid : Nat) : ECSCore :=
  match fuel with
  | 0 => s
  | fuel + 1 =>
      match tblGet s.nodes eid with
      | none => s
      | some n =>
          let s := liveFold (fun s c => ECSCore.destroy fuel s c false)
            (fun s => (s.node eid).children) 0 n.children.length s
          match (s.node eid).parent with
          | none => s
          | some p => ECSCore.removeChild fuel s p eid

/-- `Entity.removeChild(child)` on parent `p`. -/
def ECSCore.removeChild (fuel : Nat) (s : ECSCore) (p c : Nat) : ECSCore :=
  match fuel with
  | 0 => s
  | fuel + 1 =>
      if ¬ (s.node p).children.contains c then s
      else
        let n := s.node p
        let s := s.setNode p { n with children := n.children.erase c }
        if (s.node c).parent = some p then ECSCore.setParent fuel s c none else s

/-- `Entity.parent(newParent)` on entity `c` (the setter overload). -/
def ECSCore.setParent (fuel : Nat) (s : ECSCore) (c : Nat) (np : Option Nat) : ECSCore :=
  match fuel with
  | 0 => s
  | fuel + 1 =>
      if np = (s.node c).parent then s
      else
        let s := match (s.node c).parent with
          | some old => ECSCore.removeChild fuel s old c
          | none => { s with roots := s.roots.erase c }
        let s := match np with
          | some q => ECSCore.addChild fuel s q c
          | none => { s with roots := s.roots ++ [c] }
        s.setNode c { s.node c with parent := np }

/-- `Entity.addChild(child)` on parent `p`. -/
def ECSCore.addChild (fuel : Nat) (s : ECSCore) (p c : Nat) : ECSCore :=
  match fuel with
  | 0 => s
  | fuel + 1 =>
      if (s.node p).children.contains c then s
      else
        let n := s.node p
        let s := s.setNode p { n with children := n.children ++ [c] }
        ECSCore.setParent fuel s c (some p)

end

/-! ## Resources (`ECS.insertLocalResource`, `ECS.insertResource`) -/

/-- A resource instance: its type key and its data. -/
structure Res where
  rtype : Nat
  val : Nat
  deriving Repr, DecidableEq

/-- The resource view of the `ECS`: the ECS-wide table, each system
context's local table, and the index of the current context. -/
structure ECSRes where
  resources : List (Nat × Nat)
  contexts : List (List (Nat × Nat))
  current : Nat
  deriving Repr, DecidableEq

def tableSet (tbl : List (Nat × Nat)) (k v : Nat) : List (Nat × Nat) :=
  (k, v) :: tbl.filter fun p => p.1 ≠ k

/-- `ECS.insertResource(res, replace?)`. -/
def ECSRes.insertResource (s : ECSRes) (r : Res) (replace : Bool) :
    Except String ECSRes :=
  if (tblGet s.resources r.rtype).isSome ∧ ¬ replace then
    .error "DuplicateResource"
  else .ok { s with resources := tableSet s.resources r.rtype r.val }

/-- `ECS.insertLocalResource(res, replace?)`: the duplicate check the
source performs reads `this.resources` — the ECS-wide table — while the
successful write goes to the current context's local table. -/
def ECSRes.insertLocalResource (s : ECSRes) (r : Res) (replace : Bool) :
    Except String ECSRes :=
  if (tblGet s.resources r.rtype).isSome ∧ ¬ replace then
    .error "DuplicateResource"
  else
    .ok { s with
      contexts := s.contexts.mapIdx fun i tbl =>
        if i = s.current then tableSet tbl r.rtype r.val else tbl }

/-- `ECS.hasLocalResource(res)`. -/
def ECSRes.hasLocalResource (s : ECSRes) (t : Nat) : Bool :=
  (tblGet ((s.contexts.get? s.current).getD []) t).isSome

/-! ## Operation sequences over the core ECS

The reachable states of claim C3 are generated by these operations; each
`runOp` case is the corresponding source operation, and `legalOp` mirrors
the conditions under which the source call returns without throwing (plus
the restrictions stated in the amended claim). -/

/-- An ECS operation. -/
inductive Op where
  | reg (t : Nat)
  | spawnOp (cs : List Comp)
  | insertOp (e : Nat) (cs : List Comp)
  | replaceOp (e : Nat) (c : Comp)
  | deleteOp (e : Nat) (ts : List Nat)
  | destroyOp (e : Nat)
  | queryOp (d : QueryDef)
  deriving Repr, DecidableEq

/-- The empty `ECS` as built by the constructor. -/
def ecsInit : ECSCore := ⟨[], [], [], ⟨[], 0⟩, [], []⟩

def runOp (s : ECSCore) : Op → ECSCore
  | .reg t => s.addComponentType t
  | .spawnOp cs => (s.spawn cs).1
  | .insertOp e cs => (s.insertComps e cs).1
  | .replaceOp e c => (s.replaceComp e c).getD s
  | .deleteOp e ts => (s.deleteComps e ts).1
  | .destroyOp e => s.destroy 1 e false
  | .queryOp d => (s.query d).1

/-- Side conditions for `runOp`: no duplicate registration, spawn/insert
arguments that do not make `Entity.insert` throw, mutations aimed at live
entities, `replace` only on a slot that is already populated, `destroy`
without the force flag (its result needs no side condition), and queries
over registered types. -/
def legalOp (s : ECSCore) : Op → Bool
  | .reg t => ¬ registered s.components t
  | .spawnOp cs =>
      (cs.map Comp.ctype).Nodup && cs.all fun c => registered s.components c.ctype
  | .insertOp e cs =>
      s.entities.contains e && (cs.map Comp.ctype).Nodup &&
        cs.all fun c =>
          registered s.components c.ctype && (slotGet s.components c.ctype e).isNone
  | .replaceOp e c =>
      s.entities.contains e && (slotGet s.components c.ctype e).isSome
  | .deleteOp e ts =>
      s.entities.contains e && ts.all fun t => registered s.components t
  | .destroyOp _ => true
  | .queryOp d =>
      d.types.all (fun t => registered s.components t) &&
        d.mods.all fun m => registered s.components m.2

def runOps (s : ECSCore) (ops : List Op) : ECSCore :=
  ops.foldl runOp s

def legalSeq : ECSCore → List Op → Bool
  | _, [] => true
  | s, op :: rest => legalOp s op && legalSeq (runOp s op) rest

/-- What the notification fold does to one handler. -/
def applyNotify (q : QueryHandler) (st : Store) (e : Nat) (ts : List Nat) :
    QueryHandler :=
  ts.foldl (fun q t => if q.affectedBy t then q.validateEntity st e else q) q

/-- Every populated slot belongs to a live entity. -/
def SlotsLive (s : ECSCore) : Prop :=
  ∀ t e, (slotGet s.components t e).isSome = true → e ∈ s.entities

/-- The allocator never hands out an ID that is still live. -/
def AllocOk (s : ECSCore) : Prop :=
  (∀ i ∈ s.alloc.freed, i ∉ s.entities) ∧
  (∀ e ∈ s.entities, e < s.alloc.frontier) ∧
  (∀ i ∈ s.alloc.freed, i < s.alloc.frontier) ∧
  s.alloc.freed.Nodup

/-- Claim C3's operation set builds no parent/child links, so every tree
node stays in its spawned state. -/
def HierTrivial (s : ECSCore) : Prop :=
  ∀ p ∈ s.nodes, p.2 = TreeNode.mk none []

/-- The cache-coherence property of claim C3, for every handler with at
least one required component type. -/
def QInv (s : ECSCore) : Prop :=
  ∀ q ∈ s.queries, q.qdef.types ≠ [] →
    ∀ x, x ∈ q.entities ↔ (x ∈ s.entities ∧ bruteMatch s.components q.qdef x = true)

/-- The combined reachable-state invariant for claim C3. -/
def Inv (s : ECSCore) : Prop :=
  QInv s ∧ SlotsLive s ∧ AllocOk s ∧ HierTrivial s

/-! ## `MemPool` (`mempool.ts`)

Objects are identified by the order the factory created them (`0, 1, …`);
`md` is the `WeakMap` from object to its `[address, inUse]` metadata pair.
No `sanitizer` is configured; negative `size`/`growBy` cannot arise over
`Nat` (the constructor rejects/clamps them). -/

structure MemPool where
  objects : List Nat
  ffi : Nat
  md : List (Nat × Nat × Bool)
  nextId : Nat
  growBy : Nat
  deriving Repr, DecidableEq

/-- Point update of the metadata address (`omd[0] = …`). -/
def mdSetAddr (md : List (Nat × Nat × Bool)) (k a : Nat) : List (Nat × Nat × Bool) :=
  md.map fun p => if p.1 = k then (p.1, a, p.2.2) else p

/-- Point update of the metadata in-use flag (`omd[1] = …`). -/
def mdSetFlag (md : List (Nat × Nat × Bool)) (k : Nat) (b : Bool) :
    List (Nat × Nat × Bool) :=
  md.map fun p => if p.1 = k then (p.1, p.2.1, b) else p

/-- `MemPool.grow(amount)`: the loop body for one `i`: a fresh factory
object is appended at index `i = objects.length` and registered in the
metadata map at that index with the in-use flag clear; `grow` runs it
`amount` times. -/
def MemPool.grow : MemPool → Nat → MemPool
  | p, 0 => p
  | p, amount + 1 =>
      MemPool.grow
        { p with
          objects := p.objects ++ [p.nextId]
          md := p.md ++ [(p.nextId, p.objects.length, false)]
          nextId := p.nextId + 1 } amount

/-- `new MemPool(factory, { size, growBy })`. -/
def MemPool.init (size growBy : Nat) : MemPool :=
  MemPool.grow ⟨[], 0, [], 0, growBy⟩ size

/-- `MemPool.use()`. -/
def MemPool.use (p : MemPool) : Except String (Nat × MemPool) :=
  if p.objects.length ≤ p.ffi ∧ p.growBy = 0 then .error "MemPool is at capacity"
  else
    let p := if p.objects.length ≤ p.ffi then p.grow p.growBy else p
    let obj := p.objects.getD p.ffi 0
    .ok (obj, { p with md := mdSetFlag p.md obj true, ffi := p.ffi + 1 })

/-- `MemPool.free(obj)`.  (`ffi - 1` is `Nat` subtraction; the source
indexes with `-1` only when `free` is misapplied to a pool with nothing in
use, which the claims exclude.) -/
def MemPool.free (p : MemPool) (obj : Nat) : Bool × MemPool :=
  match tblGet p.md obj with
  | none => (false, p)
  | some (addr, _) =>
      let p :=
        if addr ≠ p.ffi - 1 then
          let dirty := p.objects.getD (p.ffi - 1) 0
          let dAddr := ((tblGet p.md dirty).getD (0, false)).1
          { p with
            md := mdSetAddr (mdSetAddr p.md dirty addr) obj dAddr
            objects := (p.objects.set dAddr obj).set addr dirty }
        else p
      (true, { p with md := mdSetFlag p.md obj false, ffi := p.ffi - 1 })

def MemPool.size (p : MemPool) : Nat := p.objects.length

def MemPool.inUse (p : MemPool) : Nat := p.ffi

def MemPool.avail (p : MemPool) : Nat := p.objects.length - p.ffi

/-- A `use()`/`free(obj)` call. -/
inductive PoolOp where
  | useOp
  | freeOp (o : Nat)
  deriving Repr, DecidableEq

def runPoolOp (p : MemPool) : PoolOp → MemPool
  | .useOp =>
      match p.use with
      | .ok (_, p') => p'
      | .error _ => p
  | .freeOp o => (p.free o).2

def runPoolOps (p : MemPool) (ops : List PoolOp) : MemPool :=
  ops.foldl runPoolOp p

/-- The claim's restriction: `free` is applied only to an object of this
pool that is currently in use. -/
def legalPoolOp (p : MemPool) : PoolOp → Bool
  | .useOp => true
  | .freeOp o => ((tblGet p.md o).map fun m => m.2).getD false

def legalPoolSeq : MemPool → List PoolOp → Bool
  | _, [] => true
  | p, op :: rest => legalPoolOp p op && legalPoolSeq (runPoolOp p op) rest

/-- The `MemPool` representation invariant: the address stored in an
object's metadata is its index in `objects`, the in-use flag says whether
that index is below `ffi`, the metadata map has no entries beyond the
pool's objects, and object identities are all below `nextId`.  (That
`objects` has no duplicates follows: the metadata lookup pins each
object's index.) -/
def MemPool.Inv (p : MemPool) : Prop :=
  p.ffi ≤ p.objects.length ∧
  (∀ o ∈ p.objects, o < p.nextId) ∧
  (∀ i, (h : i < p.objects.length) →
    tblGet p.md (p.objects[i]) = some (i, decide (i < p.ffi))) ∧
  (∀ o, o ∉ p.objects → tblGet p.md o = none)

/-! ### Event-bus lemmas -/

theorem prune_nil (fr g : Nat) (rs : List Nat) :
    EventHandler.prune fr ⟨[], g, rs⟩ = ⟨[], g, rs⟩ := rfl

theorem prune_singleton_keep (fr : Nat) (r : EventRec) (g : Nat) (rs : List Nat)
    (hfr : fr ≤ r.deadline) :
    EventHandler.prune fr ⟨[r], g, rs⟩ = ⟨[r], g, rs⟩ := by
  simp [EventHandler.prune, pruneFrom, pruneAt, hfr]

theorem prune_singleton_drop (fr : Nat) (r : EventRec) (g : Nat) (rs : List Nat)
    (hfr : r.deadline < fr) :
    EventHandler.prune fr ⟨[r], g, rs⟩ = ⟨[], g, rs.map fun _ => r.gen⟩ := by
  simp [EventHandler.prune, pruneFrom, pruneAt, Nat.not_le.mpr hfr, List.eraseIdx]

theorem pruneSeq_nil (fr k g : Nat) (rs : List Nat) :
    pruneSeq fr k ⟨[], g, rs⟩ = ⟨[], g, rs⟩ := by
  induction k generalizing fr with
  | zero => rfl
  | succ k ih => rw [pruneSeq, prune_nil]; exact ih (fr + 1)

theorem pruneSeq_singleton_keep (fr : Nat) (r : EventRec) (g : Nat) (rs : List Nat)
    (k : Nat) (hfr : fr + k ≤ r.deadline + 1) :
    pruneSeq fr k ⟨[r], g, rs⟩ = ⟨[r], g, rs⟩ := by
  induction k generalizing fr with
  | zero => rfl
  | succ k ih =>
      rw [pruneSeq, prune_singleton_keep fr r g rs (by omega)]
      exact ih (fr + 1) (by omega)

theorem pruneSeq_succ (fr k : Nat) (h : EventHandler) :
    pruneSeq fr (k + 1) h = pruneSeq (fr + 1) k (EventHandler.prune fr h) := rfl

theorem available_of_one (g d : Nat) (b : Option Nat) :
    EventHandler.available ⟨[⟨b, g + 1, d⟩], g + 1, [g]⟩ 0 = true := by
  simp [EventHandler.available, EventHandler.cursor]

theorem readerGet_of_one (g x d : Nat) :
    (EventHandler.readerGet ⟨[⟨some x, g + 1, d⟩], g + 1, [g]⟩ 0).1 = [some x] := by
  simp [EventHandler.readerGet, EventHandler.readerEmpty, EventHandler.cursor,
    List.filter]

theorem available_of_caughtup (g : Nat) :
    EventHandler.available ⟨[], g, [g]⟩ 0 = false := by
  simp [EventHandler.available, EventHandler.cursor]

theorem readerGet_of_caughtup (g : Nat) :
    (EventHandler.readerGet ⟨[], g, [g]⟩ 0).1 = [] := by
  simp [EventHandler.readerGet, EventHandler.readerEmpty, EventHandler.cursor]

/-! ### Store lemmas -/

theorem tblGet_filterNe (l : List (Nat × α)) (k k' : Nat) :
    tblGet (l.filter fun p => p.1 ≠ k) k' = if k' = k then none else tblGet l k' := by
  induction l with
  | nil => simp [tblGet]
  | cons p rest ih =>
      by_cases hp : p.1 = k <;> by_cases hk : k' = k <;>
        by_cases hpk : p.1 = k' <;>
        simp_all [tblGet]

theorem tblGet_filterNe' (l : List (Nat × α)) (k k' : Nat) :
    tblGet (l.filter fun p => !decide (p.1 = k)) k' =
      if k' = k then none else tblGet l k' := by
  have h := tblGet_filterNe l k k'
  simpa using h

theorem tblGet_setEntry (l : List (Nat × α)) (k k' : Nat) (v : α) :
    tblGet ((k, v) :: l.filter fun p => p.1 ≠ k) k' =
      if k' = k then some v else tblGet l k' := by
  by_cases hk : k' = k
  · simp [tblGet, hk]
  · simp only [tblGet, show ¬ k = k' from fun h => hk h.symm, if_false,
      tblGet_filterNe, hk]

theorem tblGet_setEntry' (l : List (Nat × α)) (k k' : Nat) (v : α) :
    tblGet ((k, v) :: l.filter fun p => !decide (p.1 = k)) k' =
      if k' = k then some v else tblGet l k' := by
  have h := tblGet_setEntry l k k' v
  simpa using h

theorem tblGet_storeModify (st : Store) (t t' : Nat) (f : Slots → Slots) :
    tblGet (storeModify st t f) t' =
      if t' = t then (tblGet st t).map f else tblGet st t' := by
  induction st with
  | nil => simp [tblGet, storeModify]
  | cons p rest ih =>
      simp only [storeModify, List.map_cons] at ih ⊢
      by_cases hp : p.1 = t <;> by_cases hk : t' = t <;>
        by_cases hpk : p.1 = t' <;>
        simp_all [tblGet]

theorem registered_storeModify (st : Store) (t t' : Nat) (f : Slots → Slots) :
    registered (storeModify st t f) t' = registered st t' := by
  unfold registered
  rw [tblGet_storeModify]
  by_cases hk : t' = t
  · subst hk; cases tblGet st t' <;> simp
  · simp [hk]

theorem slotGet_storeSet (st : Store) (t e t' e' : Nat) (c : Comp)
    (hreg : registered st t = true) :
    slotGet (storeSet st t e c) t' e' =
      if t' = t ∧ e' = e then some c else slotGet st t' e' := by
  unfold slotGet storeSet
  rw [tblGet_storeModify]
  rcases eq_or_ne t' t with ht | ht
  · unfold registered at hreg
    obtain ⟨slots, hs⟩ := Option.isSome_iff_exists.mp hreg
    rcases eq_or_ne e' e with he | he <;>
      simp [ht, hs, he, tblGet_setEntry, tblGet_setEntry']
  · simp [ht]

theorem slotGet_storeDel (st : Store) (t e t' e' : Nat) :
    slotGet (storeDel st t e) t' e' =
      if t' = t ∧ e' = e then none else slotGet st t' e' := by
  unfold slotGet storeDel
  rw [tblGet_storeModify]
  rcases eq_or_ne t' t with ht | ht
  · cases hs : tblGet st t with
    | none => rcases eq_or_ne e' e with he | he <;> simp [ht, hs, he]
    | some slots =>
        rcases eq_or_ne e' e with he | he <;>
          simp [ht, hs, he, tblGet_filterNe, tblGet_filterNe']
  · simp [ht]

theorem registered_storeSet (st : Store) (t e t' : Nat) (c : Comp) :
    registered (storeSet st t e c) t' = registered st t' :=
  registered_storeModify st t t' _

theorem registered_storeDel (st : Store) (t e t' : Nat) :
    registered (storeDel st t e) t' = registered st t' :=
  registered_storeModify st t t' _

/-- `hasComp` as a map over the registration lookup. -/
theorem hasComp_eq (s : ECSCore) (e t : Nat) :
    s.hasComp e t = (tblGet s.components t).map fun slots => (tblGet slots e).isSome := by
  unfold ECSCore.hasComp
  cases tblGet s.components t <;> rfl

theorem hasComp_of_registered (s : ECSCore) (e t : Nat)
    (h : registered s.components t = true) :
    s.hasComp e t = some (slotGet s.components t e).isSome := by
  rw [hasComp_eq]
  unfold registered at h
  obtain ⟨slots, hs⟩ := Option.isSome_iff_exists.mp h
  simp [hs, slotGet]

/-! ### Query handler lemmas -/

theorem modsPass_eq_all (st : Store) (e : Nat) (ms : List Mod) :
    modsPass st e ms = ms.all fun m => (slotGet st m.2 e).isSome = m.1 := by
  induction ms with
  | nil => rfl
  | cons m rest ih =>
      obtain ⟨b, t⟩ := m
      cases b <;> cases hs : (slotGet st t e).isSome <;>
        simp [modsPass, hs, ih]

theorem typesPass_eq_all (st : Store) (e : Nat) (ts : List Nat) :
    typesPass st e ts = ts.all fun t => (slotGet st t e).isSome := by
  induction ts with
  | nil => rfl
  | cons t rest ih =>
      cases hs : (slotGet st t e).isSome <;> simp [typesPass, hs, ih]

theorem bruteMatch_eq (st : Store) (d : QueryDef) (e : Nat) :
    bruteMatch st d e = (modsPass st e d.mods && typesPass st e d.types) := by
  rw [bruteMatch, modsPass_eq_all, typesPass_eq_all]

theorem allCongr (l : List α) (p q : α → Bool) (h : ∀ x ∈ l, p x = q x) :
    l.all p = l.all q := by
  induction l with
  | nil => rfl
  | cons a rest ih =>
      simp only [List.all_cons, h a (List.mem_cons_self a rest)]
      rw [ih fun x hx => h x (List.mem_cons_of_mem a hx)]

theorem contains_eq_mem [BEq α] [LawfulBEq α] (l : List α) (a : α) :
    l.contains a = true ↔ a ∈ l :=
  List.elem_iff

/-- `bruteMatch` only reads slot occupancy at the queried entity. -/
theorem bruteMatch_congr (st st' : Store) (d : QueryDef) (x : Nat)
    (h : ∀ t, t ∈ d.types ∨ t ∈ d.mods.map Prod.snd →
      (slotGet st' t x).isSome = (slotGet st t x).isSome) :
    bruteMatch st' d x = bruteMatch st d x := by
  unfold bruteMatch
  rw [allCongr d.mods _ (fun m => (slotGet st m.2 x).isSome = m.1)
      (fun m hm => by rw [h m.2 (Or.inr (List.mem_map_of_mem Prod.snd hm))]),
    allCongr d.types _ (fun t => (slotGet st t x).isSome)
      (fun t ht => by rw [h t (Or.inl ht)])]

/-- With at least one required type, an entity with no populated slots
cannot match. -/
theorem bruteMatch_empty_slots (st : Store) (d : QueryDef) (x : Nat)
    (hne : d.types ≠ [])
    (h : ∀ t, (slotGet st t x).isSome = false) :
    bruteMatch st d x = false := by
  rw [bruteMatch_eq, typesPass_eq_all]
  rcases hd : d.types with _ | ⟨t, rest⟩
  · exact absurd hd hne
  · simp [h]

theorem validate_qdef (q : QueryHandler) (st : Store) (e : Nat) :
    (q.validateEntity st e).qdef = q.qdef := by
  unfold QueryHandler.validateEntity
  split
  · split
    · split <;> rfl
    · split <;> rfl
  · split <;> rfl

theorem validate_affectedBy (q : QueryHandler) (st : Store) (e t : Nat) :
    (q.validateEntity st e).affectedBy t = q.affectedBy t := by
  unfold QueryHandler.affectedBy
  rw [validate_qdef]

theorem mem_validate (q : QueryHandler) (st : Store) (e x : Nat) :
    x ∈ (q.validateEntity st e).entities ↔
      (if x = e then bruteMatch st q.qdef e = true else x ∈ q.entities) := by
  unfold QueryHandler.validateEntity
  rw [bruteMatch_eq]
  by_cases hm : modsPass st e q.qdef.mods <;>
    by_cases ht : typesPass st e q.qdef.types <;>
    by_cases hc : q.entities.contains e = true <;>
    rcases eq_or_ne x e with rfl | hx <;>
    simp_all [QueryHandler.addEntity, QueryHandler.removeEntity, List.elem_iff]

theorem validate_idem (q : QueryHandler) (st : Store) (e : Nat) :
    (q.validateEntity st e).validateEntity st e = q.validateEntity st e := by
  have hdef := validate_qdef q st e
  by_cases hm : modsPass st e q.qdef.mods = true <;>
    by_cases ht : typesPass st e q.qdef.types = true
  · have hmem : e ∈ (q.validateEntity st e).entities := by
      rw [mem_validate]
      simp [bruteMatch_eq, hm, ht]
    set q1 := q.validateEntity st e with hq1
    unfold QueryHandler.validateEntity
    rw [show q1.qdef = q.qdef from hdef]
    simp [hm, ht, hmem, contains_eq_mem]
  all_goals
    have hmem : e ∉ (q.validateEntity st e).entities := by
      rw [mem_validate]
      simp [bruteMatch_eq, hm, ht]
  all_goals
    set q1 := q.validateEntity st e with hq1
    unfold QueryHandler.validateEntity
    rw [show q1.qdef = q.qdef from hdef]
    simp [hm, ht, hmem, contains_eq_mem]

theorem notifyInsert_map (qs : List QueryHandler) (st : Store) (e : Nat)
    (ts : List Nat) :
    notifyInsert qs st e ts = qs.map fun q => applyNotify q st e ts := by
  unfold notifyInsert applyNotify
  induction ts generalizing qs with
  | nil => simp
  | cons t rest ih =>
      simp only [List.foldl_cons]
      rw [ih]
      rw [List.map_map]
      rfl

theorem anyCongr (l : List α) (p q : α → Bool) (h : ∀ x ∈ l, p x = q x) :
    l.any p = l.any q := by
  induction l with
  | nil => rfl
  | cons a rest ih =>
      simp only [List.any_cons, h a (List.mem_cons_self a rest)]
      rw [ih fun x hx => h x (List.mem_cons_of_mem a hx)]

theorem applyNotify_eq (q : QueryHandler) (st : Store) (e : Nat) (ts : List Nat) :
    applyNotify q st e ts =
      if ts.any q.affectedBy then q.validateEntity st e else q := by
  unfold applyNotify
  induction ts generalizing q with
  | nil => simp
  | cons t rest ih =>
      simp only [List.foldl_cons, List.any_cons]
      by_cases ha : q.affectedBy t = true
      · rw [if_pos ha]
        rw [ih (q.validateEntity st e),
          anyCongr rest _ q.affectedBy fun x _ => validate_affectedBy q st e x,
          validate_idem]
        simp [ha]
      · rw [if_neg ha]
        rw [ih q]
        simp [Bool.eq_false_iff.mpr ha]

theorem insertStore_ok (st : Store) (e : Nat) (cs : List Comp)
    (hnodup : (cs.map Comp.ctype).Nodup)
    (hok : ∀ c ∈ cs, registered st c.ctype = true ∧ slotGet st c.ctype e = none) :
    (insertStore st e cs).2 = none ∧
    (∀ t, registered (insertStore st e cs).1 t = registered st t) ∧
    (∀ t x, (slotGet (insertStore st e cs).1 t x).isSome =
      if t ∈ cs.map Comp.ctype ∧ x = e then true else (slotGet st t x).isSome) := by
  induction cs generalizing st with
  | nil =>
      refine ⟨rfl, fun t => rfl, fun t x => ?_⟩
      simp [insertStore]
  | cons c rest ih =>
      obtain ⟨hreg, habs⟩ := hok c (List.mem_cons_self c rest)
      have hstep : insertStore st e (c :: rest) =
          insertStore (storeSet st c.ctype e c) e rest := by
        simp only [insertStore]
        rw [if_neg (by simp [hreg]), if_neg (by simp [habs])]
      have hnotin : c.ctype ∉ rest.map Comp.ctype := by
        have := hnodup
        simp only [List.map_cons, List.nodup_cons] at this
        exact this.1
      have hok' : ∀ c' ∈ rest, registered (storeSet st c.ctype e c) c'.ctype = true ∧
          slotGet (storeSet st c.ctype e c) c'.ctype e = none := by
        intro c' hc'
        refine ⟨by rw [registered_storeSet]; exact (hok c' (List.mem_cons_of_mem c hc')).1, ?_⟩
        rw [slotGet_storeSet st c.ctype e c'.ctype e c hreg]
        have hne : ¬ (c'.ctype = c.ctype ∧ e = e) := by
          rintro ⟨h1, -⟩
          exact hnotin (h1 ▸ List.mem_map_of_mem Comp.ctype hc')
        rw [if_neg hne]
        exact (hok c' (List.mem_cons_of_mem c hc')).2
      obtain ⟨ih1, ih2, ih3⟩ := ih (storeSet st c.ctype e c)
        (by simpa using hnodup.of_cons) hok'
      rw [hstep]
      refine ⟨ih1, fun t => ?_, fun t x => ?_⟩
      · rw [ih2, registered_storeSet]
      · rw [ih3]
        by_cases h1 : t ∈ rest.map Comp.ctype ∧ x = e
        · simp [h1, List.mem_cons, Or.inr h1.1, h1.2]
        · rw [if_neg h1]
          rw [slotGet_storeSet st c.ctype e t x c hreg]
          by_cases h2 : t = c.ctype ∧ x = e
          · simp [h2, List.mem_cons]
          · rw [if_neg h2]
            have h3 : ¬ (t ∈ (c :: rest).map Comp.ctype ∧ x = e) := by
              rintro ⟨hmem, rfl⟩
              simp only [List.map_cons, List.mem_cons] at hmem
              rcases hmem with h | h
              · exact h2 ⟨h, rfl⟩
              · exact h1 ⟨h, rfl⟩
            rw [if_neg h3]

theorem deleteStore_ok (st : Store) (e : Nat) (ts : List Nat)
    (hok : ∀ t ∈ ts, registered st t = true) :
    (deleteStore st e ts).2 = none ∧
    (∀ t, registered (deleteStore st e ts).1 t = registered st t) ∧
    (∀ t x, (slotGet (deleteStore st e ts).1 t x).isSome =
      if t ∈ ts ∧ x = e then false else (slotGet st t x).isSome) := by
  induction ts generalizing st with
  | nil =>
      refine ⟨rfl, fun t => rfl, fun t x => ?_⟩
      simp [deleteStore]
  | cons t0 rest ih =>
      have hreg := hok t0 (List.mem_cons_self t0 rest)
      have hstep : deleteStore st e (t0 :: rest) = deleteStore (storeDel st t0 e) e rest := by
        simp only [deleteStore]
        rw [if_neg (by simp [hreg])]
      have hok' : ∀ t ∈ rest, registered (storeDel st t0 e) t = true := by
        intro t ht
        rw [registered_storeDel]
        exact hok t (List.mem_cons_of_mem t0 ht)
      obtain ⟨ih1, ih2, ih3⟩ := ih (storeDel st t0 e) hok'
      rw [hstep]
      refine ⟨ih1, fun t => ?_, fun t x => ?_⟩
      · rw [ih2, registered_storeDel]
      · rw [ih3]
        by_cases h1 : t ∈ rest ∧ x = e
        · simp [h1, List.mem_cons, Or.inr h1.1, h1.2]
        · rw [if_neg h1]
          rw [slotGet_storeDel st t0 e t x]
          by_cases h2 : t = t0 ∧ x = e
          · simp [h2, List.mem_cons]
          · rw [if_neg h2]
            have h3 : ¬ (t ∈ t0 :: rest ∧ x = e) := by
              rintro ⟨hmem, rfl⟩
              rcases List.mem_cons.mp hmem with h | h
              · exact h2 ⟨h, rfl⟩
              · exact h1 ⟨h, rfl⟩
            rw [if_neg h3]

theorem applyNotify_qdef (q : QueryHandler) (st : Store) (e : Nat) (ts : List Nat) :
    (applyNotify q st e ts).qdef = q.qdef := by
  rw [applyNotify_eq]
  split
  · exact validate_qdef q st e
  · rfl

theorem affectedBy_iff (q : QueryHandler) (t : Nat) :
    q.affectedBy t = true ↔ (t ∈ q.qdef.types ∨ t ∈ q.qdef.mods.map Prod.snd) := by
  unfold QueryHandler.affectedBy
  rw [Bool.or_eq_true, contains_eq_mem, contains_eq_mem]

theorem inv_insertComps (s : ECSCore) (e : Nat) (cs : List Comp)
    (hinv : Inv s) (hlive : e ∈ s.entities)
    (hnodup : (cs.map Comp.ctype).Nodup)
    (hok : ∀ c ∈ cs, registered s.components c.ctype = true ∧
      slotGet s.components c.ctype e = none) :
    (s.insertComps e cs).2 = none ∧
    (s.insertComps e cs).1.entities = s.entities ∧
    (s.insertComps e cs).1.nodes = s.nodes ∧
    (s.insertComps e cs).1.alloc = s.alloc ∧
    Inv (s.insertComps e cs).1 := by
  obtain ⟨herr, hregs, hslots⟩ := insertStore_ok s.components e cs hnodup hok
  rcases hst : insertStore s.components e cs with ⟨st', err⟩
  rw [hst] at herr hregs hslots
  simp only at herr hregs hslots
  subst herr
  have hres : s.insertComps e cs =
      ({ s with components := st'
                queries := notifyInsert s.queries st' e (cs.map Comp.ctype) }, none) := by
    unfold ECSCore.insertComps
    rw [hst]
  rw [hres]
  obtain ⟨hqinv, hsl, hal, hhier⟩ := hinv
  refine ⟨rfl, rfl, rfl, rfl, ?_, ?_, ?_, ?_⟩
  · -- QInv
    intro q' hq' hne x
    simp only at hq' hne ⊢
    rw [notifyInsert_map] at hq'
    obtain ⟨q, hq, rfl⟩ := List.mem_map.mp hq'
    have hdef := applyNotify_qdef q st' e (cs.map Comp.ctype)
    rw [hdef] at hne
    rw [applyNotify_eq]
    by_cases hany : (cs.map Comp.ctype).any q.affectedBy = true
    · rw [if_pos hany, mem_validate, validate_qdef]
      rcases eq_or_ne x e with rfl | hx
      · simp [hlive]
      · rw [if_neg hx, hqinv q hq hne x]
        have hbr : bruteMatch st' q.qdef x = bruteMatch s.components q.qdef x := by
          apply bruteMatch_congr
          intro t _
          rw [hslots t x, if_neg (fun h => hx h.2)]
        rw [hbr]
    · rw [if_neg hany, hqinv q hq hne x]
      have hbr : bruteMatch st' q.qdef x = bruteMatch s.components q.qdef x := by
        apply bruteMatch_congr
        intro t href
        rw [hslots t x]
        have htm : t ∉ cs.map Comp.ctype := by
          intro hmem
          have : q.affectedBy t = true := (affectedBy_iff q t).mpr href
          rw [List.any_eq_true] at hany
          exact hany ⟨t, hmem, this⟩
        rw [if_neg (fun h => htm h.1)]
      rw [hbr]
  · -- SlotsLive
    intro t x h
    simp only at h ⊢
    rw [hslots t x] at h
    by_cases hc : t ∈ cs.map Comp.ctype ∧ x = e
    · exact hc.2 ▸ hlive
    · rw [if_neg hc] at h
      exact hsl t x h
  · exact hal
  · exact hhier

theorem tblGet_mapSnd (l : List (Nat × α)) (g : α → α) (k : Nat) :
    tblGet (l.map fun p => (p.1, g p.2)) k = (tblGet l k).map g := by
  induction l with
  | nil => rfl
  | cons p rest ih =>
      by_cases hp : p.1 = k <;> simp [tblGet, hp, ih]

theorem tblGet_mem (l : List (Nat × α)) (k : Nat) (v : α) (h : tblGet l k = some v) :
    (k, v) ∈ l := by
  induction l with
  | nil => simp [tblGet] at h
  | cons p rest ih =>
      obtain ⟨pk, pv⟩ := p
      by_cases hp : pk = k
      · subst hp
        simp [tblGet] at h
        subst h
        exact List.mem_cons_self _ _
      · simp only [tblGet, hp, if_false] at h
        exact List.mem_cons_of_mem _ (ih h)

theorem node_trivial (s : ECSCore) (hhier : HierTrivial s) (e : Nat) :
    s.node e = ⟨none, []⟩ := by
  unfold ECSCore.node
  cases hn : tblGet s.nodes e with
  | none => rfl
  | some n => exact hhier (e, n) (tblGet_mem _ _ _ hn)

theorem destroy_noop (s : ECSCore) (e : Nat) (fuel : Nat)
    (h : e ∉ s.entities) :
    s.destroy (fuel + 1) e false = s := by
  unfold ECSCore.destroy
  rw [if_pos (by simp [contains_eq_mem, h])]

/-- All of an entity's slots are deleted on destroy. -/
theorem slotGet_delAll (st : Store) (e t x : Nat) :
    (slotGet (st.map fun p => (p.1, p.2.filter fun c => c.1 ≠ e)) t x) =
      if x = e then none else slotGet st t x := by
  unfold slotGet
  rw [tblGet_mapSnd]
  cases hs : tblGet st t with
  | none => simp
  | some slots =>
      simp only [Option.map_some', Option.some_bind]
      rw [tblGet_filterNe]

theorem nodeOnDestroy_trivial (s : ECSCore) (e : Nat) (f : Nat)
    (hhier : ∀ p ∈ s.nodes, p.2 = TreeNode.mk none []) :
    ECSCore.nodeOnDestroy f s e = s := by
  cases f with
  | zero => rfl
  | succ f =>
      unfold ECSCore.nodeOnDestroy
      cases ht : tblGet s.nodes e with
      | none => rfl
      | some n =>
          have hnt : n = ⟨none, []⟩ := hhier (e, n) (tblGet_mem _ _ _ ht)
          subst hnt
          simp only [List.length_nil]
          rw [show ∀ g kids s', liveFold g kids 0 0 s' = s' from fun _ _ _ => rfl]
          have hn : s.node e = ⟨none, []⟩ := by
            unfold ECSCore.node
            rw [ht]
            rfl
          rw [hn]

/-- Under the trivial hierarchy, `ECS.destroy` of a live entity is the
plain teardown, independently of the (positive) fuel: the fuel only feeds
the hierarchy cascade, which has nothing to do. -/
theorem destroy_succ_eq (s : ECSCore) (e : Nat) (f : Nat) (hhier : HierTrivial s)
    (hcont : e ∈ s.entities) :
    s.destroy (f + 1) e false =
      { components := s.components.map fun p => (p.1, p.2.filter fun c => c.1 ≠ e)
        entities := s.entities.filter fun x => x ≠ e
        nodes := s.nodes
        alloc := s.alloc.free e
        queries := s.queries.map fun q =>
          if q.entities.contains e then q.removeEntity e else q
        roots := s.roots } := by
  unfold ECSCore.destroy
  rw [if_neg (by simp [contains_eq_mem, hcont])]
  rw [if_neg (by rw [node_trivial s hhier e]; simp)]
  dsimp only
  rw [nodeOnDestroy_trivial _ e f (by intro p hp; exact hhier p hp)]

/-- Fuel 1 case of `destroy_succ_eq`. -/
theorem destroy_one_eq (s : ECSCore) (e : Nat) (hhier : HierTrivial s)
    (hcont : e ∈ s.entities) :
    s.destroy 1 e false =
      { components := s.components.map fun p => (p.1, p.2.filter fun c => c.1 ≠ e)
        entities := s.entities.filter fun x => x ≠ e
        nodes := s.nodes
        alloc := s.alloc.free e
        queries := s.queries.map fun q =>
          if q.entities.contains e then q.removeEntity e else q
        roots := s.roots } :=
  destroy_succ_eq s e 0 hhier hcont

/-- Destroying with any positive fuel equals destroying with fuel 1 when
every tree node is trivial. -/
theorem destroy_fuel_ge_one (s : ECSCore) (e : Nat) (f : Nat)
    (hhier : HierTrivial s) :
    s.destroy (f + 1) e false = s.destroy 1 e false := by
  by_cases hcont : e ∈ s.entities
  · rw [destroy_succ_eq s e f hhier hcont, destroy_one_eq s e hhier hcont]
  · rw [destroy_noop s e f hcont, destroy_noop s e 0 hcont]

theorem removeStep_qdef (q : QueryHandler) (e : Nat) :
    (if q.entities.contains e then q.removeEntity e else q).qdef = q.qdef := by
  split <;> rfl

theorem mem_removeStep (q : QueryHandler) (e x : Nat) :
    x ∈ (if q.entities.contains e then q.removeEntity e else q).entities ↔
      (x ∈ q.entities ∧ x ≠ e) := by
  by_cases hc : q.entities.contains e = true
  · rw [if_pos hc]
    unfold QueryHandler.removeEntity
    simp
  · rw [if_neg hc]
    constructor
    · intro hx
      refine ⟨hx, ?_⟩
      rintro rfl
      exact hc ((contains_eq_mem _ _).mpr hx)
    · exact And.left

theorem inv_destroy (s : ECSCore) (e : Nat) (hinv : Inv s) :
    Inv (s.destroy 1 e false) := by
  obtain ⟨hqinv, hsl, hal, hhier⟩ := hinv
  by_cases hcont : e ∈ s.entities
  · rw [destroy_one_eq s e hhier hcont]
    refine ⟨?_, ?_, ?_, ?_⟩
    · intro q' hq' hne x
      simp only [List.mem_map] at hq'
      obtain ⟨q, hq, rfl⟩ := hq'
      rw [removeStep_qdef] at hne ⊢
      rw [mem_removeStep]
      simp only [List.mem_filter, slotGet_delAll]
      rcases eq_or_ne x e with rfl | hx
      · constructor
        · rintro ⟨-, h⟩; exact absurd rfl h
        · rintro ⟨⟨-, h⟩, -⟩; simp at h
      · rw [hqinv q hq hne x]
        have hbr : bruteMatch
            (s.components.map fun p => (p.1, p.2.filter fun c => c.1 ≠ e)) q.qdef x =
            bruteMatch s.components q.qdef x := by
          apply bruteMatch_congr
          intro t _
          rw [slotGet_delAll, if_neg hx]
        rw [hbr]
        simp [hx]
    · intro t x h
      simp only [slotGet_delAll] at h
      rcases eq_or_ne x e with rfl | hx
      · rw [if_pos rfl] at h; simp at h
      · rw [if_neg hx] at h
        simp only [List.mem_filter]
        exact ⟨hsl t x h, by simpa using hx⟩
    · obtain ⟨h1, h2, h3, h4⟩ := hal
      refine ⟨?_, ?_, ?_, ?_⟩
      · intro i hi
        simp only [Allocator.free, List.mem_cons] at hi
        simp only [List.mem_filter]
        rcases hi with rfl | hi
        · rintro ⟨-, hne⟩; simp at hne
        · rintro ⟨hmem, -⟩; exact h1 i hi hmem
      · intro x hx
        exact h2 x (List.mem_filter.mp hx).1
      · intro i hi
        simp only [Allocator.free, List.mem_cons] at hi
        rcases hi with rfl | hi
        · exact h2 i hcont
        · exact h3 i hi
      · simp only [Allocator.free, List.nodup_cons]
        exact ⟨fun hmem => h1 e hmem hcont, h4⟩
    · exact hhier
  · rw [destroy_noop s e 0 hcont]
    exact ⟨hqinv, hsl, hal, hhier⟩

theorem inv_deleteComps (s : ECSCore) (e : Nat) (ts : List Nat)
    (hinv : Inv s) (hlive : e ∈ s.entities)
    (hok : ∀ t ∈ ts, registered s.components t = true) :
    (s.deleteComps e ts).2 = none ∧ Inv (s.deleteComps e ts).1 := by
  obtain ⟨herr, hregs, hslots⟩ := deleteStore_ok s.components e ts hok
  rcases hst : deleteStore s.components e ts with ⟨st', err⟩
  rw [hst] at herr hregs hslots
  simp only at herr hregs hslots
  subst herr
  have hres : s.deleteComps e ts =
      ({ s with components := st'
                queries := notifyInsert s.queries st' e ts }, none) := by
    unfold ECSCore.deleteComps
    rw [hst]
  rw [hres]
  obtain ⟨hqinv, hsl, hal, hhier⟩ := hinv
  refine ⟨rfl, ?_, ?_, hal, hhier⟩
  · intro q' hq' hne x
    simp only at hq' hne ⊢
    rw [notifyInsert_map] at hq'
    obtain ⟨q, hq, rfl⟩ := List.mem_map.mp hq'
    have hdef := applyNotify_qdef q st' e ts
    rw [hdef] at hne
    rw [applyNotify_eq]
    by_cases hany : ts.any q.affectedBy = true
    · rw [if_pos hany, mem_validate, validate_qdef]
      rcases eq_or_ne x e with rfl | hx
      · simp [hlive]
      · rw [if_neg hx, hqinv q hq hne x]
        have hbr : bruteMatch st' q.qdef x = bruteMatch s.components q.qdef x := by
          apply bruteMatch_congr
          intro t _
          rw [hslots t x, if_neg (fun h => hx h.2)]
        rw [hbr]
    · rw [if_neg hany, hqinv q hq hne x]
      have hbr : bruteMatch st' q.qdef x = bruteMatch s.components q.qdef x := by
        apply bruteMatch_congr
        intro t href
        rw [hslots t x]
        have htm : t ∉ ts := by
          intro hmem
          have : q.affectedBy t = true := (affectedBy_iff q t).mpr href
          rw [List.any_eq_true] at hany
          exact hany ⟨t, hmem, this⟩
        rw [if_neg (fun h => htm h.1)]
      rw [hbr]
  · intro t x h
    simp only at h ⊢
    rw [hslots t x] at h
    by_cases hc : t ∈ ts ∧ x = e
    · rw [if_pos hc] at h; cases h
    · rw [if_neg hc] at h
      exact hsl t x h

theorem slotGet_addType (st : Store) (t t' x : Nat)
    (hunreg : registered st t = false) :
    (slotGet ((t, ([] : Slots)) :: st.filter fun p => p.1 ≠ t) t' x).isSome =
      (slotGet st t' x).isSome := by
  unfold slotGet
  rw [tblGet_setEntry]
  rcases eq_or_ne t' t with heq | h
  · have hn : tblGet st t = none := by
      unfold registered at hunreg
      exact Option.not_isSome_iff_eq_none.mp (by simp [hunreg])
    rw [if_pos heq, heq, hn]
    rfl
  · rw [if_neg h]

theorem inv_reg (s : ECSCore) (t : Nat) (hinv : Inv s)
    (hunreg : registered s.components t = false) :
    Inv (s.addComponentType t) := by
  obtain ⟨hqinv, hsl, hal, hhier⟩ := hinv
  unfold ECSCore.addComponentType
  refine ⟨?_, ?_, hal, hhier⟩
  · intro q hq hne x
    simp only at hq ⊢
    rw [hqinv q hq hne x]
    have hbr : bruteMatch ((t, ([] : Slots)) :: s.components.filter fun p => p.1 ≠ t)
        q.qdef x = bruteMatch s.components q.qdef x := by
      apply bruteMatch_congr
      intro t' _
      exact slotGet_addType s.components t t' x hunreg
    rw [hbr]
  · intro t' x h
    simp only at h
    rw [slotGet_addType s.components t t' x hunreg] at h
    exact hsl t' x h

theorem inv_replace (s : ECSCore) (e : Nat) (c : Comp) (hinv : Inv s)
    (hreg : registered s.components c.ctype = true)
    (hpres : (slotGet s.components c.ctype e).isSome = true) :
    ∃ s', s.replaceComp e c = some s' ∧
      s'.entities = s.entities ∧
      s'.queries.map QueryHandler.entities = s.queries.map QueryHandler.entities ∧
      Inv s' := by
  obtain ⟨hqinv, hsl, hal, hhier⟩ := hinv
  have hlive : e ∈ s.entities := hsl c.ctype e hpres
  have hiso : ∀ t x, (slotGet (storeSet s.components c.ctype e c) t x).isSome =
      (slotGet s.components t x).isSome := by
    intro t x
    rw [slotGet_storeSet s.components c.ctype e t x c hreg]
    by_cases h : t = c.ctype ∧ x = e
    · rw [if_pos h, h.1, h.2, hpres]
      rfl
    · rw [if_neg h]
  refine ⟨{ s with
      components := storeSet s.components c.ctype e c
      queries := s.queries.map fun q =>
        if q.affectedBy c.ctype then q.replaceComp e c else q }, ?_, rfl, ?_, ?_⟩
  · unfold ECSCore.replaceComp
    rw [if_neg (by simp [hreg])]
  · -- replace never touches any handler's entity set
    simp only [List.map_map]
    apply List.map_congr_left
    intro q _
    simp only [Function.comp_apply]
    split <;> rfl
  · refine ⟨?_, ?_, hal, hhier⟩
    · intro q' hq' hne x
      simp only [List.mem_map] at hq'
      obtain ⟨q, hq, rfl⟩ := hq'
      have hqd : (if q.affectedBy c.ctype then q.replaceComp e c else q).qdef = q.qdef := by
        split <;> rfl
      rw [hqd] at hne ⊢
      have hent : (if q.affectedBy c.ctype then q.replaceComp e c else q).entities =
          q.entities := by
        split <;> rfl
      rw [hent, hqinv q hq hne x]
      have hbr : bruteMatch (storeSet s.components c.ctype e c) q.qdef x =
          bruteMatch s.components q.qdef x := by
        apply bruteMatch_congr
        intro t _
        exact hiso t x
      rw [hbr]
    · intro t x h
      rw [show ({ s with
          components := storeSet s.components c.ctype e c
          queries := s.queries.map fun q =>
            if q.affectedBy c.ctype then q.replaceComp e c else q } :
          ECSCore).components = storeSet s.components c.ctype e c from rfl,
        hiso t x] at h
      exact hsl t x h

theorem foldValidate_qdef (st : Store) (es : List Nat) (q : QueryHandler) :
    (es.foldl (fun q e => q.validateEntity st e) q).qdef = q.qdef := by
  induction es generalizing q with
  | nil => rfl
  | cons e es ih =>
      simp only [List.foldl_cons]
      rw [ih (q.validateEntity st e), validate_qdef]

/-- Seeding a handler by validating a list of entities. -/
theorem seed_mem (st : Store) (es : List Nat) (q : QueryHandler) (x : Nat) :
    x ∈ (es.foldl (fun q e => q.validateEntity st e) q).entities ↔
      (if x ∈ es then bruteMatch st q.qdef x = true else x ∈ q.entities) := by
  induction es generalizing q with
  | nil => simp
  | cons e es ih =>
      simp only [List.foldl_cons]
      rw [ih (q.validateEntity st e), validate_qdef]
      by_cases hx : x ∈ es
      · simp [hx, List.mem_cons, Or.inr hx]
      · rcases eq_or_ne x e with rfl | hne
        · simp only [hx, if_false, List.mem_cons, true_or, if_true, if_pos rfl,
            mem_validate]
        · simp only [hx, if_false, mem_validate, if_neg hne]
          have : ¬ x ∈ e :: es := by
            rw [List.mem_cons]
            rintro (h | h)
            exacts [hne h, hx h]
          rw [if_neg this]

theorem inv_query (s : ECSCore) (d : QueryDef) (hinv : Inv s) :
    Inv (s.query d).1 := by
  obtain ⟨hqinv, hsl, hal, hhier⟩ := hinv
  unfold ECSCore.query
  cases hf : findQuery s.queries d with
  | some i => exact ⟨hqinv, hsl, hal, hhier⟩
  | none =>
      refine ⟨?_, hsl, hal, hhier⟩
      intro q' hq' hne x
      rcases List.mem_append.mp hq' with hq | hq
      · exact hqinv q' hq hne x
      · rw [List.mem_singleton] at hq
        subst hq
        rw [seed_mem, foldValidate_qdef]
        by_cases hx : x ∈ s.entities
        · simp [hx]
        · simp [hx]

theorem alloc_spec (s : ECSCore) (hal : AllocOk s) :
    (s.alloc.alloc).1 ∉ s.entities ∧
    (∀ i ∈ (s.alloc.alloc).2.freed, i ∉ s.entities ∧ i ≠ (s.alloc.alloc).1) ∧
    (∀ e ∈ s.entities, e < (s.alloc.alloc).2.frontier) ∧
    ((s.alloc.alloc).1 < (s.alloc.alloc).2.frontier) ∧
    (∀ i ∈ (s.alloc.alloc).2.freed, i < (s.alloc.alloc).2.frontier) ∧
    (s.alloc.alloc).2.freed.Nodup := by
  obtain ⟨h1, h2, h3, h4⟩ := hal
  unfold Allocator.alloc
  cases hfr : s.alloc.freed with
  | nil =>
      simp only []
      refine ⟨?_, by simp, ?_, by omega, by simp, by simp⟩
      · intro hmem
        exact absurd (h2 _ hmem) (lt_irrefl _)
      · intro e he
        exact Nat.lt_succ_of_lt (h2 e he)
  | cons c rest =>
      have hcn : c ∉ rest := by
        rw [hfr] at h4
        exact (List.nodup_cons.mp h4).1
      simp only []
      refine ⟨h1 c (by rw [hfr]; exact List.mem_cons_self c rest), ?_, ?_, ?_, ?_, ?_⟩
      · intro i hi
        refine ⟨h1 i (by rw [hfr]; exact List.mem_cons_of_mem c hi), ?_⟩
        rintro rfl
        exact hcn hi
      · exact h2
      · exact h3 c (by rw [hfr]; exact List.mem_cons_self c rest)
      · intro i hi
        exact h3 i (by rw [hfr]; exact List.mem_cons_of_mem c hi)
      · rw [hfr] at h4
        exact (List.nodup_cons.mp h4).2

theorem inv_spawn (s : ECSCore) (cs : List Comp) (hinv : Inv s)
    (hnodup : (cs.map Comp.ctype).Nodup)
    (hregs : ∀ c ∈ cs, registered s.components c.ctype = true) :
    Inv (s.spawn cs).1 := by
  obtain ⟨hfresh, hfr1, hfr2, hfr3, hfr4, hfr5⟩ := alloc_spec s hinv.2.2.1
  obtain ⟨hqinv, hsl, hal, hhier⟩ := hinv
  rcases halloc : s.alloc.alloc with ⟨eid, al⟩
  rw [halloc] at hfresh hfr1 hfr2 hfr3 hfr4 hfr5
  simp only at hfresh hfr1 hfr2 hfr3 hfr4 hfr5
  have hspawn : (s.spawn cs).1 =
      (ECSCore.insertComps
        { components := s.components
          entities := s.entities ++ [eid]
          nodes := (eid, ⟨none, []⟩) :: s.nodes.filter fun p => p.1 ≠ eid
          alloc := al
          queries := s.queries
          roots := s.roots } eid cs).1 := by
    unfold ECSCore.spawn
    rw [halloc]
    rfl
  rw [hspawn]
  set s1 : ECSCore :=
    { components := s.components
      entities := s.entities ++ [eid]
      nodes := (eid, ⟨none, []⟩) :: s.nodes.filter fun p => p.1 ≠ eid
      alloc := al
      queries := s.queries
      roots := s.roots } with hs1
  have hnone : ∀ t, slotGet s.components t eid = none := by
    intro t
    apply Option.not_isSome_iff_eq_none.mp
    intro h
    exact hfresh (hsl t eid (by simpa using h))
  have hinv1 : Inv s1 := by
    refine ⟨?_, ?_, ?_, ?_⟩
    · intro q hq hne x
      rw [hqinv q hq hne x]
      constructor
      · rintro ⟨hent, hb⟩
        exact ⟨List.mem_append_left _ hent, hb⟩
      · rintro ⟨hent, hb⟩
        rcases List.mem_append.mp hent with h | h
        · exact ⟨h, hb⟩
        · rw [List.mem_singleton] at h
          subst h
          rw [bruteMatch_empty_slots s.components q.qdef x hne
            (fun t => by rw [hnone t]; rfl)] at hb
          cases hb
    · intro t x h
      exact List.mem_append_left _ (hsl t x h)
    · refine ⟨?_, ?_, ?_, hfr5⟩
      · intro i hi
        intro hmem
        rcases List.mem_append.mp hmem with h | h
        · exact (hfr1 i hi).1 h
        · rw [List.mem_singleton] at h
          exact (hfr1 i hi).2 h
      · intro x hx
        rcases List.mem_append.mp hx with h | h
        · exact hfr2 x h
        · rw [List.mem_singleton] at h
          subst h
          exact hfr3
      · exact hfr4
    · intro p hp
      rcases List.mem_cons.mp hp with h | h
      · rw [h]
      · exact hhier p (List.mem_of_mem_filter h)
  have hok1 : ∀ c ∈ cs, registered s1.components c.ctype = true ∧
      slotGet s1.components c.ctype eid = none := by
    intro c hc
    exact ⟨hregs c hc, hnone c.ctype⟩
  exact (inv_insertComps s1 eid cs hinv1
    (List.mem_append_right _ (List.mem_singleton_self eid)) hnodup hok1).2.2.2.2

/-- The empty ECS satisfies the invariant. -/
theorem inv_init : Inv ecsInit := by
  refine ⟨?_, ?_, ⟨?_, ?_, ?_, ?_⟩, ?_⟩
  · intro q hq
    cases hq
  · intro t x h
    cases h
  · intro i hi
    cases hi
  · intro e he
    cases he
  · intro i hi
    cases hi
  · exact List.nodup_nil
  · intro p hp
    cases hp

theorem inv_runOp (s : ECSCore) (op : Op) (hinv : Inv s)
    (hleg : legalOp s op = true) : Inv (runOp s op) := by
  cases op with
  | reg t =>
      simp only [legalOp, decide_eq_true_eq] at hleg
      exact inv_reg s t hinv (by rwa [Bool.not_eq_true] at hleg)
  | spawnOp cs =>
      simp only [legalOp, Bool.and_eq_true, decide_eq_true_eq, List.all_eq_true] at hleg
      exact inv_spawn s cs hinv hleg.1 hleg.2
  | insertOp e cs =>
      simp only [legalOp, Bool.and_eq_true, decide_eq_true_eq, List.all_eq_true,
        contains_eq_mem] at hleg
      refine (inv_insertComps s e cs hinv hleg.1.1 hleg.1.2 fun c hc => ?_).2.2.2.2
      have hcc := hleg.2 c hc
      exact ⟨hcc.1, Option.isNone_iff_eq_none.mp hcc.2⟩
  | replaceOp e c =>
      simp only [legalOp, Bool.and_eq_true, contains_eq_mem] at hleg
      have hreg : registered s.components c.ctype = true := by
        have := hleg.2
        unfold slotGet at this
        cases ht : tblGet s.components c.ctype with
        | none => rw [ht] at this; cases this
        | some slots => simp [registered, ht]
      obtain ⟨s', heq, -, -, hinv'⟩ := inv_replace s e c hinv hreg hleg.2
      simp only [runOp, heq, Option.getD_some]
      exact hinv'
  | deleteOp e ts =>
      simp only [legalOp, Bool.and_eq_true, decide_eq_true_eq, List.all_eq_true,
        contains_eq_mem] at hleg
      exact (inv_deleteComps s e ts hinv hleg.1 hleg.2).2
  | destroyOp e => exact inv_destroy s e hinv
  | queryOp d => exact inv_query s d hinv

theorem inv_runOps (s : ECSCore) (ops : List Op) (hinv : Inv s)
    (hleg : legalSeq s ops = true) : Inv (runOps s ops) := by
  induction ops generalizing s with
  | nil => exact hinv
  | cons op rest ih =>
      simp only [legalSeq, Bool.and_eq_true] at hleg
      exact ih (runOp s op) (inv_runOp s op hinv hleg.1) hleg.2

/-! ### Query matching and deduplication lemmas -/

theorem matchDef_iff (d q : QueryDef) :
    QueryHandler.matchDef d q = true ↔
      (d.types = q.types ∧ d.mods.length = q.mods.length ∧ ∀ m ∈ d.mods, m ∈ q.mods) := by
  unfold QueryHandler.matchDef
  simp only [Bool.and_eq_true, decide_eq_true_eq, List.all_eq_true, contains_eq_mem]
  tauto

theorem matchDef_refl (d : QueryDef) : QueryHandler.matchDef d d = true :=
  (matchDef_iff d d).mpr ⟨rfl, rfl, fun _ hm => hm⟩

theorem findQuery_none_iff (qs : List QueryHandler) (d : QueryDef) :
    findQuery qs d = none ↔ ∀ q ∈ qs, QueryHandler.matchDef q.qdef d = false := by
  induction qs with
  | nil => simp [findQuery]
  | cons q rest ih =>
      unfold findQuery
      by_cases h : QueryHandler.matchDef q.qdef d = true
      · simp [h]
      · rw [if_neg h]
        simp only [Option.map_eq_none', ih, List.mem_cons]
        constructor
        · intro hall q' hq'
          rcases hq' with rfl | hq'
          · exact Bool.eq_false_iff.mpr h
          · exact hall q' hq'
        · intro hall q' hq'
          exact hall q' (Or.inr hq')

theorem findQuery_append_one (qs : List QueryHandler) (q : QueryHandler) (d : QueryDef)
    (hnone : ∀ q' ∈ qs, QueryHandler.matchDef q'.qdef d = false)
    (hq : QueryHandler.matchDef q.qdef d = true) :
    findQuery (qs ++ [q]) d = some qs.length := by
  induction qs with
  | nil => simp [findQuery, hq]
  | cons q0 rest ih =>
      have h0 : QueryHandler.matchDef q0.qdef d = false :=
        hnone q0 (List.mem_cons_self q0 rest)
      rw [List.cons_append]
      unfold findQuery
      rw [if_neg (by simp [h0])]
      rw [ih fun q' hq' => hnone q' (List.mem_cons_of_mem q0 hq')]
      rfl

/-! ## Claim theorems: event bus -/

/-- **C1** (code bug evidence).  The frame-boundary prune in `ECS.update`
splices `handler.data` while `forEach` is iterating it, so of two
consecutive expired records only the first is dropped: with two records
written on tick 1 (generations 1 and 2, both carrying deadline 3, long
expired at frame 4), the boundary entering tick 5 leaves the second
record in the list, still observable, even though its expiry frame has
passed; the spec requires every such record to be dropped at every
boundary. -/
theorem c1_expired_record_survives_boundary :
    EvState.updateBoundary ⟨4, [⟨[⟨some 1, 1, 3⟩, ⟨some 2, 2, 3⟩], 2, [0]⟩]⟩ =
      ⟨5, [⟨[⟨some 2, 2, 3⟩], 2, [1]⟩]⟩ ∧
    (EvState.updateBoundary
        ⟨4, [⟨[⟨some 1, 1, 3⟩, ⟨some 2, 2, 3⟩], 2, [0]⟩]⟩).handlers.any
      (fun h => h.data.any fun d => d.deadline < 4) = true := by
  constructor <;> rfl

/-- **C2** (counterexample).  A payload written on frame 1 into a fresh
handler is still available after 2 additional frame advances without
reading — the claim asserts `available()` is `false` and `get()` empty at
that point. -/
theorem c2_two_frame_expiry_counterexample :
    (pruneSeq 1 2 (EventHandler.write ⟨[], 0, [0]⟩ 1 (some 7))).available 0 = true ∧
    ((pruneSeq 1 2 (EventHandler.write ⟨[], 0, [0]⟩ 1 (some 7))).readerGet 0).1 =
      [some 7] := by
  constructor <;> rfl

/-- **C2** (amended).  For a handler with no pending records at generation
`g` and one fresh reader: a write of `x` on frame `f` stamps generation
`g + 1` and expiry `f + 2`, and the reader still receives `[x]` (and
`available()` is `true`) through 3 additional frame advances; only after 4
or more additional frame advances without reading — the boundary entering
tick `f + 4` is the first whose pruning condition `deadline < frame` fires
— is `available()` `false` and `get()` empty. -/
theorem c2_event_roundtrip_window (g f x : Nat) :
    (∀ k, k ≤ 3 →
      (pruneSeq f k (EventHandler.write ⟨[], g, [g]⟩ f (some x))).available 0 = true ∧
      ((pruneSeq f k (EventHandler.write ⟨[], g, [g]⟩ f (some x))).readerGet 0).1 =
        [some x]) ∧
    (∀ k, 4 ≤ k →
      (pruneSeq f k (EventHandler.write ⟨[], g, [g]⟩ f (some x))).available 0 = false ∧
      ((pruneSeq f k (EventHandler.write ⟨[], g, [g]⟩ f (some x))).readerGet 0).1 =
        []) := by
  have hw : EventHandler.write ⟨[], g, [g]⟩ f (some x) =
      ⟨[⟨some x, g + 1, f + 2⟩], g + 1, [g]⟩ := rfl
  constructor
  · intro k hk
    rw [hw, pruneSeq_singleton_keep f _ _ _ k (by simp; omega)]
    exact ⟨available_of_one g (f + 2) (some x), readerGet_of_one g x (f + 2)⟩
  · intro k hk
    obtain ⟨m, rfl⟩ : ∃ m, k = m + 4 := ⟨k - 4, by omega⟩
    rw [hw, pruneSeq_succ, prune_singleton_keep _ _ _ _ (by simp),
      pruneSeq_succ, prune_singleton_keep _ _ _ _ (by simp),
      pruneSeq_succ, prune_singleton_keep _ _ _ _ (by simp),
      pruneSeq_succ, prune_singleton_drop _ _ _ _ (by simp)]
    rw [show ([g].map fun _ => EventRec.gen ⟨some x, g + 1, f + 2⟩) = [g + 1] from rfl]
    rw [pruneSeq_nil]
    exact ⟨available_of_caughtup (g + 1), readerGet_of_caughtup (g + 1)⟩

/-- **C2** (witness for the amended theorem at `g = 0`, `f = 0`, `x = 5`,
read after 2 advances and availability after 4). -/
theorem c2_event_roundtrip_window_witness :
    ((pruneSeq 0 2 (EventHandler.write ⟨[], 0, [0]⟩ 0 (some 5))).readerGet 0).1 =
      [some 5] ∧
    (pruneSeq 0 4 (EventHandler.write ⟨[], 0, [0]⟩ 0 (some 5))).available 0 = false := by
  have h := c2_event_roundtrip_window 0 0 5
  exact ⟨(h.1 2 (by decide)).2, (h.2 4 (by decide)).1⟩

/-- **C10**.  A freshly constructed `EventReader` starts with its cursor
at the handler's current generation, so immediately after creation
`available()` is `false` and `get()` returns `[]`, whatever records are
still pending in the handler. -/
theorem c10_fresh_reader_sees_nothing (h : EventHandler) :
    (h.newReader.1.cursor h.newReader.2 = h.gen) ∧
    h.newReader.1.available h.newReader.2 = false ∧
    (h.newReader.1.readerGet h.newReader.2).1 = [] := by
  have hc : (h.readers ++ [h.gen]).get? h.readers.length = some h.gen := by
    simp
  refine ⟨?_, ?_, ?_⟩ <;>
    simp [EventHandler.newReader, EventHandler.cursor, EventHandler.available,
      EventHandler.readerGet, EventHandler.readerEmpty, hc]

/-! ## Claim theorems: query cache, component store, resources -/

/-- **C3** (counterexample).  From the empty ECS: register type 0, spawn
an empty entity (ID 0), create the query `[0]` (its matching set is
empty), then `replace` entity 0 with a component of type 0 — the source's
`Entity.replace` writes a slot the entity did not previously hold and
notifies handlers without re-validating.  Afterwards entity 0 is live and
matches the definition by brute force, but the handler's matching set is
still empty: the incremental cache and the brute-force recomputation
disagree on a state reachable with the claim's own operations. -/
theorem c3_replace_desyncs_cache_counterexample :
    Option.map
      (fun s => (s.entities, s.queries.map QueryHandler.entities,
        bruteMatch s.components ⟨[0], []⟩ 0))
      ((runOps ecsInit [.reg 0, .spawnOp [], .queryOp ⟨[0], []⟩]).replaceComp 0 ⟨0, 7⟩) =
      some ([0], [[]], true) := by
  decide

/-- **C3** (amended).  For every state reachable from the empty ECS by
non-throwing `spawn`/`insert`/`delete`/`destroy` (without the force flag)
/`query`/`addComponentType` operations on live entities and registered
types, and by `replace` restricted to a component type the target entity
currently holds, every query handler whose definition has at least one
required component type holds exactly the live entities that satisfy all
its required types and `With`/`Without` modifiers by brute-force
recomputation.  (Unrestricted `replace` is a counterexample; so are
handlers with an empty required-type list, which miss entities that spawn
matching them because `spawn` only notifies handlers affected by an
inserted component type.) -/
theorem c3_query_cache_coherent (ops : List Op)
    (hleg : legalSeq ecsInit ops = true) :
    ∀ q ∈ (runOps ecsInit ops).queries, q.qdef.types ≠ [] →
      ∀ x, x ∈ q.entities ↔
        (x ∈ (runOps ecsInit ops).entities ∧
          bruteMatch (runOps ecsInit ops).components q.qdef x = true) :=
  (inv_runOps ecsInit ops inv_init hleg).1

/-- **C3** (witness): register type 0, spawn an entity carrying a
component of type 0, query `[0]`; the theorem instantiated at the seeded
handler and entity 0. -/
theorem c3_query_cache_coherent_witness :
    0 ∈ ((runOps ecsInit
        [.reg 0, .spawnOp [⟨0, 1⟩], .queryOp ⟨[0], []⟩]).queries.getD 0
          ⟨⟨[], []⟩, [], []⟩).entities ↔
      (0 ∈ (runOps ecsInit [.reg 0, .spawnOp [⟨0, 1⟩], .queryOp ⟨[0], []⟩]).entities ∧
        bruteMatch (runOps ecsInit [.reg 0, .spawnOp [⟨0, 1⟩], .queryOp ⟨[0], []⟩]).components
          ((runOps ecsInit [.reg 0, .spawnOp [⟨0, 1⟩], .queryOp ⟨[0], []⟩]).queries.getD 0
            ⟨⟨[], []⟩, [], []⟩).qdef 0 = true) :=
  c3_query_cache_coherent [.reg 0, .spawnOp [⟨0, 1⟩], .queryOp ⟨[0], []⟩]
    (by decide)
    ((runOps ecsInit [.reg 0, .spawnOp [⟨0, 1⟩], .queryOp ⟨[0], []⟩]).queries.getD 0
      ⟨⟨[], []⟩, [], []⟩)
    (by decide) (by decide) 0

/-- **C4** (counterexample).  `QueryHandler.match` accepts two definitions
whose modifier lists are the same two modifiers in opposite order, so
"equivalent iff the filter lists match element-for-element in the same
order" fails in the only-if direction. -/
theorem c4_match_order_counterexample :
    QueryHandler.matchDef ⟨[], [(true, 0), (true, 1)]⟩ ⟨[], [(true, 1), (true, 0)]⟩ =
      true ∧
    (⟨[], [(true, 0), (true, 1)]⟩ : QueryDef) ≠ ⟨[], [(true, 1), (true, 0)]⟩ := by
  decide

/-- **C4** (amended).  `QueryHandler.match` compares required-type lists
element-for-element in order, but modifier lists only by equal length plus
membership of each of the handler's modifiers in the probe (order-
insensitive, and asymmetric under duplicates); and query definitions are
deduplicated against that relation: querying the same definition twice
returns the same handler index backed by the same state, so all result
views share one underlying matching set. -/
theorem c4_match_and_dedup :
    (∀ d q : QueryDef, QueryHandler.matchDef d q = true ↔
      (d.types = q.types ∧ d.mods.length = q.mods.length ∧ ∀ m ∈ d.mods, m ∈ q.mods)) ∧
    (∀ (s : ECSCore) (d : QueryDef),
      ((s.query d).1.query d).2 = (s.query d).2 ∧
      ((s.query d).1.query d).1 = (s.query d).1) := by
  refine ⟨matchDef_iff, fun s d => ?_⟩
  cases hf : findQuery s.queries d with
  | some i =>
      have h1 : s.query d = (s, i) := by
        unfold ECSCore.query
        rw [hf]
      rw [h1]
      rw [h1]
      exact ⟨rfl, rfl⟩
  | none =>
      have h1 : s.query d =
          ({ s with queries := s.queries ++
              [s.entities.foldl (fun (q : QueryHandler) e => q.validateEntity s.components e)
                ⟨d, [], d.types.map fun t => (t, [])⟩] }, s.queries.length) := by
        unfold ECSCore.query
        rw [hf]
      have hq : QueryHandler.matchDef
          (s.entities.foldl (fun (q : QueryHandler) e => q.validateEntity s.components e)
            (⟨d, [], d.types.map fun t => (t, [])⟩ : QueryHandler)).qdef d = true := by
        rw [foldValidate_qdef]
        exact matchDef_refl d
      have h2 : findQuery (s.queries ++
          [s.entities.foldl (fun (q : QueryHandler) e => q.validateEntity s.components e)
            (⟨d, [], d.types.map fun t => (t, [])⟩ : QueryHandler)]) d =
          some s.queries.length :=
        findQuery_append_one _ _ _ ((findQuery_none_iff _ _).mp hf) hq
      rw [h1]
      constructor
      · unfold ECSCore.query
        rw [h2]
      · unfold ECSCore.query
        rw [h2]

/-- **C4** (witness): a definition matches itself, via the
characterization at a concrete definition. -/
theorem c4_match_and_dedup_witness :
    QueryHandler.matchDef ⟨[0], [(false, 1)]⟩ ⟨[0], [(false, 1)]⟩ = true :=
  (c4_match_and_dedup.1 _ _).mpr ⟨rfl, rfl, fun _ hm => hm⟩

/-- **C5** (counterexample).  With component type 0 registered and the
live entity 0 not holding it, `replace(0, c)` with `c` of type 0 turns
`has(0, 0)` from `false` to `true`: replace does change presence when the
slot was empty. -/
theorem c5_replace_creates_presence_counterexample :
    ECSCore.hasComp ⟨[(0, [])], [0], [(0, ⟨none, []⟩)], ⟨[], 1⟩, [], []⟩ 0 0 =
      some false ∧
    Option.map (fun s' => s'.hasComp 0 0)
      (ECSCore.replaceComp ⟨[(0, [])], [0], [(0, ⟨none, []⟩)], ⟨[], 1⟩, [], []⟩ 0 ⟨0, 7⟩) =
      some (some true) := by
  decide

/-- **C5** (amended).  `has(e, T)` reflects the last slot-writing
operation: a successful `insert` of a component of type `T` makes it
`true`, a `delete` of `T` makes it `false`, and a `replace` with a
component of type `T` makes it `true` whether or not the entity previously
held one (creating presence when the slot was empty).  `replace` never
changes any query handler's matching set, and touches no other
(entity, type) presence. -/
theorem c5_has_reflects_ops (s : ECSCore) (e : Nat) (c : Comp) (t : Nat)
    (hreg : registered s.components c.ctype = true)
    (hregt : registered s.components t = true) :
    ((s.insertComps e [c]).2 = none →
      (s.insertComps e [c]).1.hasComp e c.ctype = some true) ∧
    ((s.deleteComps e [t]).1.hasComp e t = some false) ∧
    (∀ s', s.replaceComp e c = some s' →
      s'.hasComp e c.ctype = some true ∧
      s'.queries.map QueryHandler.entities = s.queries.map QueryHandler.entities ∧
      (∀ t', t' ≠ c.ctype → s'.hasComp e t' = s.hasComp e t') ∧
      (∀ e' t', e' ≠ e → s'.hasComp e' t' = s.hasComp e' t')) := by
  have hcs : ∀ st : Store, st = storeSet s.components c.ctype e c →
      (slotGet st c.ctype e).isSome = true := by
    rintro st rfl
    rw [slotGet_storeSet s.components c.ctype e c.ctype e c hreg, if_pos ⟨rfl, rfl⟩]
    rfl
  refine ⟨?_, ?_, ?_⟩
  · intro herr
    by_cases hpres : (slotGet s.components c.ctype e).isSome = true
    · exfalso
      have hdup : s.insertComps e [c] =
          ({ s with components := s.components }, some "DuplicateComponent") := by
        unfold ECSCore.insertComps insertStore
        rw [if_neg (by simp [hreg]), if_pos hpres]
      rw [hdup] at herr
      cases herr
    · have hstep : s.insertComps e [c] =
          (⟨storeSet s.components c.ctype e c, s.entities, s.nodes, s.alloc,
            notifyInsert s.queries (storeSet s.components c.ctype e c) e [c.ctype],
            s.roots⟩, none) := by
        unfold ECSCore.insertComps insertStore
        rw [if_neg (by simp [hreg]), if_neg (by simp [hpres])]
        rfl
      rw [hstep]
      rw [hasComp_of_registered _ _ _
        (by dsimp only; rw [registered_storeSet]; exact hreg)]
      dsimp only
      rw [hcs _ rfl]
  · have hstep : s.deleteComps e [t] =
        (⟨storeDel s.components t e, s.entities, s.nodes, s.alloc,
          notifyInsert s.queries (storeDel s.components t e) e [t], s.roots⟩,
          none) := by
      unfold ECSCore.deleteComps deleteStore
      rw [if_neg (by simp [hregt])]
      rfl
    rw [hstep]
    rw [hasComp_of_registered _ _ _
      (by dsimp only; rw [registered_storeDel]; exact hregt)]
    dsimp only
    rw [slotGet_storeDel s.components t e t e, if_pos ⟨rfl, rfl⟩]
    rfl
  · intro s' heq
    have hstep : s.replaceComp e c =
        some ⟨storeSet s.components c.ctype e c, s.entities, s.nodes, s.alloc,
          s.queries.map fun q => if q.affectedBy c.ctype then q.replaceComp e c else q,
          s.roots⟩ := by
      unfold ECSCore.replaceComp
      rw [if_neg (by simp [hreg])]
    rw [hstep] at heq
    obtain rfl := Option.some_inj.mp heq
    refine ⟨?_, ?_, ?_, ?_⟩
    · rw [hasComp_of_registered _ _ _
        (by dsimp only; rw [registered_storeSet]; exact hreg)]
      dsimp only
      rw [hcs _ rfl]
    · simp only [List.map_map]
      apply List.map_congr_left
      intro q _
      simp only [Function.comp_apply]
      split <;> rfl
    · intro t' ht'
      rw [hasComp_eq, hasComp_eq]
      dsimp only
      unfold storeSet
      rw [tblGet_storeModify, if_neg ht']
    · intro e' t' he'
      rw [hasComp_eq, hasComp_eq]
      dsimp only
      unfold storeSet
      rw [tblGet_storeModify]
      rcases eq_or_ne t' c.ctype with rfl | ht'
      · rw [if_pos rfl]
        cases tblGet s.components c.ctype with
        | none => rfl
        | some slots =>
            simp [tblGet_setEntry, tblGet_setEntry', he']
      · rw [if_neg ht']

/-- **C5** (witness): delete clears presence on a concrete state. -/
theorem c5_has_reflects_ops_witness :
    (ECSCore.deleteComps ⟨[(0, [(0, ⟨0, 1⟩)])], [0], [(0, ⟨none, []⟩)], ⟨[], 1⟩, [], []⟩
      0 [0]).1.hasComp 0 0 = some false :=
  (c5_has_reflects_ops ⟨[(0, [(0, ⟨0, 1⟩)])], [0], [(0, ⟨none, []⟩)], ⟨[], 1⟩, [], []⟩
    0 ⟨0, 9⟩ 0 (by decide) (by decide)).2.1

set_option maxRecDepth 1000000 in
/-- **C6** (code bug evidence).  Destroying entity 0, whose four children
1–4 each hold a component of type 0 matched by the seeded query `[0]`:
each destroyed child detaches itself from the parent's `children` array
while `ECS.destroy`'s `forEach` (and then `TreeNode.onDestroy`'s) is
iterating it, so the loops skip every element shifted under the cursor —
children 1 and 3 die in the first pass, 2 in the second, and child 4
survives: it stays live, keeps its component, and remains in the query
handler's matching set, contradicting "destroys all descendants exactly
once and none remains in any matching set". -/
theorem c6_fourth_child_survives_destroy :
    (fun s : ECSCore => (s.entities, s.queries.map QueryHandler.entities,
        (s.node 0).children))
      (ECSCore.destroy 50
        ⟨[(0, [(0, ⟨0, 10⟩), (1, ⟨0, 11⟩), (2, ⟨0, 12⟩), (3, ⟨0, 13⟩), (4, ⟨0, 14⟩)])],
         [0, 1, 2, 3, 4],
         [(0, ⟨none, [1, 2, 3, 4]⟩), (1, ⟨some 0, []⟩), (2, ⟨some 0, []⟩),
          (3, ⟨some 0, []⟩), (4, ⟨some 0, []⟩)],
         ⟨[], 5⟩,
         [⟨⟨[0], []⟩, [0, 1, 2, 3, 4],
           [(0, [(0, ⟨0, 10⟩), (1, ⟨0, 11⟩), (2, ⟨0, 12⟩), (3, ⟨0, 13⟩), (4, ⟨0, 14⟩)])]⟩],
         [0]⟩
        0 false) = ([4], [[4]], [4]) := by
  with_unfolding_all rfl

/-- **C7** (counterexample).  `ECS.addComponentType` performs no duplicate
check: re-registering a type that already holds a stored component throws
no error and resets the slot array, erasing the instance — `has` flips
from `true` to `false`. -/
theorem c7_reregistration_resets_counterexample :
    ECSCore.hasComp ⟨[(0, [(0, ⟨0, 42⟩)])], [0], [(0, ⟨none, []⟩)], ⟨[], 1⟩, [], []⟩ 0 0 =
      some true ∧
    (ECSCore.addComponentType
      ⟨[(0, [(0, ⟨0, 42⟩)])], [0], [(0, ⟨none, []⟩)], ⟨[], 1⟩, [], []⟩ 0).hasComp 0 0 =
      some false := by
  decide

/-- **C7** (amended).  `addComponentType(T)` unconditionally installs a
fresh empty slot array for `T`: the first call registers it, and every
subsequent call with the same `T` silently replaces the slot array
(dropping all stored instances of `T`, so `has(e, T)` is `false` for every
entity afterwards) instead of failing with a `DuplicateType` error; other
types' slot arrays are untouched. -/
theorem c7_reregistration_silently_resets (s : ECSCore) (t e : Nat) :
    tblGet (s.addComponentType t).components t = some [] ∧
    (s.addComponentType t).hasComp e t = some false ∧
    (∀ t', t' ≠ t → tblGet (s.addComponentType t).components t' =
      tblGet s.components t') := by
  refine ⟨?_, ?_, ?_⟩
  · rw [show (s.addComponentType t).components =
        (t, ([] : Slots)) :: s.components.filter fun p => p.1 ≠ t from rfl]
    rw [tblGet_setEntry, if_pos rfl]
  · rw [hasComp_eq]
    rw [show (s.addComponentType t).components =
        (t, ([] : Slots)) :: s.components.filter fun p => p.1 ≠ t from rfl]
    rw [tblGet_setEntry, if_pos rfl]
    rfl
  · intro t' ht'
    rw [show (s.addComponentType t).components =
        (t, ([] : Slots)) :: s.components.filter fun p => p.1 ≠ t from rfl]
    rw [tblGet_setEntry, if_neg ht']

/-- **C7** (witness). -/
theorem c7_reregistration_silently_resets_witness :
    (ecsInit.addComponentType 0).hasComp 5 0 = some false :=
  (c7_reregistration_silently_resets ecsInit 0 5).2.1

/-- **C8** (code bug evidence).  `ECS.insertLocalResource`'s duplicate
check reads `this.resources` — the ECS-wide table — not the current
context's local table, contradicting the method's own documentation and
the claim: with a global resource of type 0 and an empty local table the
call fails, and with a local resource of type 0 and an empty global table
it silently overwrites. -/
theorem c8_local_insert_checks_global_table :
    ECSRes.insertLocalResource ⟨[(0, 99)], [[]], 0⟩ ⟨0, 5⟩ false =
      .error "DuplicateResource" ∧
    ECSRes.hasLocalResource ⟨[(0, 99)], [[]], 0⟩ 0 = false ∧
    ECSRes.insertLocalResource ⟨[], [[(0, 42)]], 0⟩ ⟨0, 5⟩ false =
      .ok ⟨[], [[(0, 5)]], 0⟩ ∧
    ECSRes.hasLocalResource ⟨[], [[(0, 42)]], 0⟩ 0 = true := by
  exact ⟨rfl, rfl, rfl, rfl⟩

/-! ### MemPool lemmas -/

theorem tblGet_append (l₁ l₂ : List (Nat × α)) (k : Nat) :
    tblGet (l₁ ++ l₂) k = (tblGet l₁ k).or (tblGet l₂ k) := by
  induction l₁ with
  | nil => simp [tblGet]
  | cons p rest ih => by_cases hp : p.1 = k <;> simp [tblGet, hp, ih]

theorem tblGet_mdSetAddr (md : List (Nat × Nat × Bool)) (k a k' : Nat) :
    tblGet (mdSetAddr md k a) k' =
      if k' = k then (tblGet md k).map (fun m => (a, m.2)) else tblGet md k' := by
  induction md with
  | nil => simp [tblGet, mdSetAddr]
  | cons p rest ih =>
      simp only [mdSetAddr, List.map_cons] at ih ⊢
      rcases eq_or_ne p.1 k with hp | hp <;> rcases eq_or_ne k' k with rfl | hk
      · simp [tblGet, hp, ih]
      · simp [tblGet, hp, hk, Ne.symm hk, ih]
      · simp [tblGet, hp, ih]
      · simp [tblGet, hp, hk, ih]

theorem tblGet_mdSetFlag (md : List (Nat × Nat × Bool)) (k : Nat) (b : Bool) (k' : Nat) :
    tblGet (mdSetFlag md k b) k' =
      if k' = k then (tblGet md k).map (fun m => (m.1, b)) else tblGet md k' := by
  induction md with
  | nil => simp [tblGet, mdSetFlag]
  | cons p rest ih =>
      simp only [mdSetFlag, List.map_cons] at ih ⊢
      rcases eq_or_ne p.1 k with hp | hp <;> rcases eq_or_ne k' k with rfl | hk
      · simp [tblGet, hp, ih]
      · simp [tblGet, hp, hk, Ne.symm hk, ih]
      · simp [tblGet, hp, ih]
      · simp [tblGet, hp, hk, ih]

theorem grow_ffi (p : MemPool) (n : Nat) : (p.grow n).ffi = p.ffi := by
  induction n generalizing p with
  | zero => rfl
  | succ n ih => rw [MemPool.grow]; exact ih _

theorem grow_growBy (p : MemPool) (n : Nat) : (p.grow n).growBy = p.growBy := by
  induction n generalizing p with
  | zero => rfl
  | succ n ih => rw [MemPool.grow]; exact ih _

theorem grow_size (p : MemPool) (n : Nat) :
    (p.grow n).objects.length = p.objects.length + n := by
  induction n generalizing p with
  | zero => rfl
  | succ n ih =>
      rw [MemPool.grow, ih]
      simp
      omega

/-- `grow` only appends: the old objects keep their indices, and every new
object identity is at least the old `nextId`. -/
theorem grow_objects_suffix (p : MemPool) (n : Nat) :
    ∃ l, (p.grow n).objects = p.objects ++ l ∧ ∀ o ∈ l, p.nextId ≤ o := by
  induction n generalizing p with
  | zero => exact ⟨[], by simp [MemPool.grow], by simp⟩
  | succ n ih =>
      rw [MemPool.grow]
      obtain ⟨l, hl, hge⟩ := ih
        { p with
          objects := p.objects ++ [p.nextId]
          md := p.md ++ [(p.nextId, p.objects.length, false)]
          nextId := p.nextId + 1 }
      refine ⟨p.nextId :: l, ?_, ?_⟩
      · simpa using hl
      · intro o ho
        rcases List.mem_cons.mp ho with rfl | ho
        · exact le_refl _
        · exact Nat.le_of_succ_le (hge o ho)

/-- One iteration of the `grow` loop body preserves the invariant. -/
theorem inv_grow_step (p : MemPool) (h : p.Inv) :
    MemPool.Inv
      { p with
        objects := p.objects ++ [p.nextId]
        md := p.md ++ [(p.nextId, p.objects.length, false)]
        nextId := p.nextId + 1 } := by
  obtain ⟨hffi, hbound, haddr, hdom⟩ := h
  refine ⟨?_, ?_, ?_, ?_⟩
  · show p.ffi ≤ (p.objects ++ [p.nextId]).length
    have hlen : (p.objects ++ [p.nextId]).length = p.objects.length + 1 := by simp
    omega
  · intro o ho
    rcases List.mem_append.mp ho with ho | ho
    · exact Nat.lt_succ_of_lt (hbound o ho)
    · simp at ho
      subst ho
      show p.nextId < p.nextId + 1
      omega
  · intro i hi
    simp only [List.length_append, List.length_singleton] at hi
    rcases Nat.lt_or_ge i p.objects.length with hlt | hge
    · rw [List.getElem_append_left hlt, tblGet_append, haddr i hlt]
      simp
    · have hieq : i = p.objects.length := by omega
      subst hieq
      rw [List.getElem_concat_length, tblGet_append]
      have hnmem : p.nextId ∉ p.objects := fun hm => absurd (hbound _ hm) (lt_irrefl _)
      rw [hdom _ hnmem]
      simp [tblGet, Nat.not_lt.mpr hffi]
      rfl
  · intro o ho
    simp only [List.mem_append, List.mem_singleton, not_or] at ho
    have hne : ¬ p.nextId = o := fun h => ho.2 h.symm
    rw [tblGet_append, hdom o ho.1]
    simp [tblGet, hne]

theorem inv_grow (p : MemPool) (n : Nat) (h : p.Inv) : (p.grow n).Inv := by
  induction n generalizing p with
  | zero => exact h
  | succ n ih => rw [MemPool.grow]; exact ih _ (inv_grow_step p h)

/-- The metadata address pins each object's index: `objects` cannot hold
the same object at two indices. -/
theorem inv_idx_inj (p : MemPool) (h : p.Inv) (i j : Nat)
    (hi : i < p.objects.length) (hj : j < p.objects.length)
    (he : p.objects[i] = p.objects[j]) : i = j := by
  obtain ⟨-, -, haddr, -⟩ := h
  have h1 := haddr i hi
  have h2 := haddr j hj
  rw [he, h2] at h1
  simp at h1
  omega

theorem inv_poolInit (size growBy : Nat) : (MemPool.init size growBy).Inv := by
  refine inv_grow _ _ ⟨le_refl 0, ?_, ?_, ?_⟩
  · intro o ho; simp at ho
  · intro i hi; simp at hi
  · intro o _; rfl

theorem getD_of_lt (l : List Nat) (i : Nat) (h : i < l.length) (d : Nat) :
    l.getD i d = l[i] := by
  rw [List.getD_eq_getElem?_getD, List.getElem?_eq_getElem h]
  rfl

/-- The common tail of `use()`: marking the object at index `ffi` in-use
and bumping `ffi` preserves the invariant, given a spare slot. -/
theorem inv_bump (q : MemPool) (hq : q.Inv) (hlt : q.ffi < q.objects.length) :
    MemPool.Inv
      { q with md := mdSetFlag q.md (q.objects.getD q.ffi 0) true, ffi := q.ffi + 1 } := by
  obtain ⟨hffi, hbound, haddr, hdom⟩ := hq
  rw [getD_of_lt _ _ hlt]
  refine ⟨?_, ?_, ?_, ?_⟩
  · exact hlt
  · exact hbound
  · intro j hj
    show tblGet (mdSetFlag q.md (q.objects[q.ffi]) true) (q.objects[j]) =
      some (j, decide (j < q.ffi + 1))
    rw [tblGet_mdSetFlag]
    by_cases hje : q.objects[j] = q.objects[q.ffi]
    · have hjf : j = q.ffi := inv_idx_inj q ⟨hffi, hbound, haddr, hdom⟩ j q.ffi hj hlt hje
      rw [if_pos hje, hjf, haddr q.ffi hlt]
      simp
    · rw [if_neg hje, haddr j hj]
      have hjne : j ≠ q.ffi := fun he => hje (he ▸ rfl)
      have : decide (j < q.ffi) = decide (j < q.ffi + 1) :=
        decide_eq_decide.mpr (by omega)
      rw [this]
  · intro o ho
    show tblGet (mdSetFlag q.md (q.objects[q.ffi]) true) o = none
    rw [tblGet_mdSetFlag]
    have hne : o ≠ q.objects[q.ffi] := fun he => ho (he ▸ List.getElem_mem hlt)
    rw [if_neg hne]
    exact hdom o ho

/-- `use()` under the invariant, when not exhausted-without-growth: it
returns `ok` with an object whose in-use flag is clear in the pre-state,
grows the backing array by `growBy` exactly when it was full, and
preserves the invariant with `ffi` incremented. -/
theorem use_ok (p : MemPool) (h : p.Inv)
    (hc : ¬(p.objects.length ≤ p.ffi ∧ p.growBy = 0)) :
    ∃ o p', p.use = .ok (o, p') ∧
      ((tblGet p.md o).map fun m => m.2).getD false = false ∧
      p'.Inv ∧ p'.ffi = p.ffi + 1 ∧
      (p.objects.length ≤ p.ffi →
        p'.objects.length = p.objects.length + p.growBy) ∧
      (p.ffi < p.objects.length → p'.objects = p.objects) := by
  by_cases hlen : p.objects.length ≤ p.ffi
  · have hgb : p.growBy ≠ 0 := fun hg => hc ⟨hlen, hg⟩
    have hfeq : p.ffi = p.objects.length := le_antisymm (by exact h.1) hlen
    set q := p.grow p.growBy with hqdef
    have hq : q.Inv := inv_grow p p.growBy h
    have hqffi : q.ffi = p.ffi := grow_ffi p p.growBy
    have hqlen : q.objects.length = p.objects.length + p.growBy := grow_size p p.growBy
    have hlt : q.ffi < q.objects.length := by omega
    refine ⟨q.objects.getD q.ffi 0,
      { q with md := mdSetFlag q.md (q.objects.getD q.ffi 0) true, ffi := q.ffi + 1 },
      ?_, ?_, inv_bump q hq hlt,
      by show q.ffi + 1 = p.ffi + 1; omega,
      fun _ => by show q.objects.length = p.objects.length + p.growBy; omega,
      fun hcon => absurd hcon (Nat.not_lt.mpr hlen)⟩
    · simp [MemPool.use, hc, hlen, hgb]
    · obtain ⟨l, hl, hge⟩ := grow_objects_suffix p p.growBy
      rw [getD_of_lt _ _ hlt]
      have hidx : p.objects.length ≤ q.ffi := by omega
      have hb : q.ffi < (p.objects ++ l).length := by rw [← hl]; exact hlt
      have hobj : q.objects[q.ffi] ∈ l := by
        have he1 : q.objects[q.ffi] = (p.objects ++ l)[q.ffi] := List.getElem_of_eq hl hlt
        rw [he1, List.getElem_append_right hidx]
        exact List.getElem_mem _
      have hnot : q.objects[q.ffi] ∉ p.objects := fun hm =>
        absurd (h.2.1 _ hm) (Nat.not_lt.mpr (hge _ hobj))
      rw [h.2.2.2 _ hnot]
      rfl
  · push_neg at hlen
    refine ⟨p.objects.getD p.ffi 0,
      { p with md := mdSetFlag p.md (p.objects.getD p.ffi 0) true, ffi := p.ffi + 1 },
      ?_, ?_, inv_bump p h hlen, rfl, fun hcon => absurd hcon (Nat.not_le.mpr hlen),
      fun _ => rfl⟩
    · simp [MemPool.use, hc, Nat.not_le.mpr hlen]
    · rw [getD_of_lt _ _ hlen, h.2.2.1 p.ffi hlen]
      simp

/-- `free(o)` under the invariant, applied to an in-use pool object:
it returns `true`, preserves the invariant, decrements `ffi`, and keeps
the backing array's length. -/
theorem free_ok (p : MemPool) (h : p.Inv) (o : Nat)
    (hl : ((tblGet p.md o).map fun m => m.2).getD false = true) :
    (p.free o).1 = true ∧ (p.free o).2.Inv ∧ (p.free o).2.ffi = p.ffi - 1 ∧
      (p.free o).2.objects.length = p.objects.length := by
  obtain ⟨hffi, hbound, haddr, hdom⟩ := h
  rcases hmd : tblGet p.md o with _ | ⟨addr, fl⟩
  · rw [hmd] at hl; simp at hl
  have hfl : fl = true := by rw [hmd] at hl; simpa using hl
  subst hfl
  have hmem : o ∈ p.objects := by
    by_contra hn
    rw [hdom o hn] at hmd
    cases hmd
  obtain ⟨i, hi, hio⟩ := List.mem_iff_getElem.mp hmem
  have hia := haddr i hi
  rw [hio, hmd] at hia
  simp only [Option.some.injEq, Prod.mk.injEq] at hia
  obtain ⟨hiaddr, hflag⟩ := hia
  have hlt : i < p.ffi := by
    have := hflag.symm
    simpa using this
  subst hiaddr
  rcases eq_or_ne addr (p.ffi - 1) with heq | hne
  · -- the freed object already sits in the last in-use slot: no swap
    have hfree : p.free o =
        (true, { p with md := mdSetFlag p.md o false, ffi := p.ffi - 1 }) := by
      simp only [MemPool.free, hmd]
      rw [if_neg (not_ne_iff.mpr heq)]
    rw [hfree]
    refine ⟨rfl, ⟨?_, ?_, ?_, ?_⟩, rfl, rfl⟩
    · show p.ffi - 1 ≤ p.objects.length
      omega
    · exact hbound
    · intro j hj
      show tblGet (mdSetFlag p.md o false) (p.objects[j]) =
        some (j, decide (j < p.ffi - 1))
      rw [tblGet_mdSetFlag]
      by_cases hje : p.objects[j] = o
      · have hj_eq : j = addr :=
          inv_idx_inj p ⟨hffi, hbound, haddr, hdom⟩ j addr hj hi (hje.trans hio.symm)
        rw [if_pos hje, hmd]
        have hd : decide (j < p.ffi - 1) = false := decide_eq_false (by omega)
        rw [hd, hj_eq]
        rfl
      · rw [if_neg hje, haddr j hj]
        have hjne : j ≠ addr := fun he => hje (by subst he; exact hio)
        have hd : decide (j < p.ffi) = decide (j < p.ffi - 1) :=
          decide_eq_decide.mpr (by omega)
        rw [hd]
    · intro o' ho'
      show tblGet (mdSetFlag p.md o false) o' = none
      have hne' : o' ≠ o := fun he => ho' (he ▸ hmem)
      rw [tblGet_mdSetFlag, if_neg hne']
      exact hdom o' ho'
  · -- the freed object is swapped with the last in-use slot
    have hfi1 : p.ffi - 1 < p.objects.length := by omega
    have hgd : p.objects.getD (p.ffi - 1) 0 = p.objects[p.ffi - 1] :=
      getD_of_lt _ _ hfi1 _
    have hdmd : tblGet p.md (p.objects[p.ffi - 1]) = some (p.ffi - 1, true) := by
      rw [haddr (p.ffi - 1) hfi1]
      have : decide (p.ffi - 1 < p.ffi) = true := decide_eq_true (by omega)
      rw [this]
    have hdne : p.objects[p.ffi - 1] ≠ o := by
      intro he
      have := inv_idx_inj p ⟨hffi, hbound, haddr, hdom⟩ (p.ffi - 1) addr hfi1 hi
        (he.trans hio.symm)
      omega
    have hfree : p.free o =
        (true,
          { p with
            objects := (p.objects.set (p.ffi - 1) o).set addr (p.objects[p.ffi - 1])
            md := mdSetFlag
              (mdSetAddr (mdSetAddr p.md (p.objects[p.ffi - 1]) addr) o (p.ffi - 1))
              o false
            ffi := p.ffi - 1 }) := by
      simp only [MemPool.free, hmd, if_pos hne, hgd, hdmd, Option.getD_some]
    rw [hfree]
    have hlen2 : ((p.objects.set (p.ffi - 1) o).set addr (p.objects[p.ffi - 1])).length =
        p.objects.length := by
      simp [List.length_set]
    have hget2 : ∀ j, (hj : j < p.objects.length) →
        ((p.objects.set (p.ffi - 1) o).set addr (p.objects[p.ffi - 1]))[j] =
          if addr = j then p.objects[p.ffi - 1]
          else if p.ffi - 1 = j then o else p.objects[j] := by
      intro j hj
      rw [List.getElem_set, List.getElem_set]
    refine ⟨rfl, ⟨?_, ?_, ?_, ?_⟩, rfl, hlen2⟩
    · show p.ffi - 1 ≤
        ((p.objects.set (p.ffi - 1) o).set addr (p.objects[p.ffi - 1])).length
      rw [hlen2]
      omega
    · intro x hx
      rcases List.mem_or_eq_of_mem_set hx with hx | hxe
      · rcases List.mem_or_eq_of_mem_set hx with hx | hxe
        · exact hbound x hx
        · rw [hxe]; exact hbound o hmem
      · rw [hxe]; exact hbound _ (List.getElem_mem hfi1)
    · intro j hj
      have hjlen : j < p.objects.length := by simpa using hj
      show tblGet
        (mdSetFlag (mdSetAddr (mdSetAddr p.md (p.objects[p.ffi - 1]) addr) o (p.ffi - 1))
          o false)
        (((p.objects.set (p.ffi - 1) o).set addr (p.objects[p.ffi - 1]))[j]) =
        some (j, decide (j < p.ffi - 1))
      rw [hget2 j hjlen]
      by_cases haj : addr = j
      · rw [if_pos haj, tblGet_mdSetFlag, if_neg hdne, tblGet_mdSetAddr, if_neg hdne,
          tblGet_mdSetAddr, if_pos rfl, hdmd]
        have hd : decide (j < p.ffi - 1) = true := decide_eq_true (by omega)
        rw [hd, haj]
        rfl
      · rw [if_neg haj]
        by_cases hfj : p.ffi - 1 = j
        · rw [if_pos hfj, tblGet_mdSetFlag, if_pos rfl, tblGet_mdSetAddr, if_pos rfl,
            tblGet_mdSetAddr, if_neg (fun he => hdne he.symm), hmd]
          have hd : decide (j < p.ffi - 1) = false := decide_eq_false (by omega)
          rw [hd, hfj]
          rfl
        · rw [if_neg hfj]
          have hko : p.objects[j] ≠ o := by
            intro he
            have := inv_idx_inj p ⟨hffi, hbound, haddr, hdom⟩ j addr hjlen hi
              (he.trans hio.symm)
            omega
          have hkd : p.objects[j] ≠ p.objects[p.ffi - 1] := by
            intro he
            have := inv_idx_inj p ⟨hffi, hbound, haddr, hdom⟩ j (p.ffi - 1) hjlen hfi1 he
            omega
          rw [tblGet_mdSetFlag, if_neg hko, tblGet_mdSetAddr, if_neg hko,
            tblGet_mdSetAddr, if_neg hkd, haddr j hjlen]
          have hd : decide (j < p.ffi) = decide (j < p.ffi - 1) :=
            decide_eq_decide.mpr (by omega)
          rw [hd]
    · intro o' ho'
      have hbo : p.ffi - 1 <
          ((p.objects.set (p.ffi - 1) o).set addr (p.objects[p.ffi - 1])).length := by
        rw [hlen2]
        omega
      have hba : addr <
          ((p.objects.set (p.ffi - 1) o).set addr (p.objects[p.ffi - 1])).length := by
        rw [hlen2]; omega
      have homem : o ∈ (p.objects.set (p.ffi - 1) o).set addr (p.objects[p.ffi - 1]) :=
        List.mem_iff_getElem.mpr
          ⟨p.ffi - 1, hbo, by rw [hget2 _ hfi1, if_neg hne, if_pos rfl]⟩
      have hdmem : p.objects[p.ffi - 1] ∈
          (p.objects.set (p.ffi - 1) o).set addr (p.objects[p.ffi - 1]) :=
        List.mem_iff_getElem.mpr ⟨addr, hba, by rw [hget2 _ hi, if_pos rfl]⟩
      have hno : o' ≠ o := fun he => ho' (he ▸ homem)
      have hnd : o' ≠ p.objects[p.ffi - 1] := fun he => ho' (he ▸ hdmem)
      have hnp : o' ∉ p.objects := by
        intro hmem'
        obtain ⟨j, hj, hjo⟩ := List.mem_iff_getElem.mp hmem'
        by_cases haj : addr = j
        · subst haj
          exact hno (hjo.symm.trans hio)
        · by_cases hfj : p.ffi - 1 = j
          · subst hfj
            exact hnd hjo.symm
          · apply ho'
            refine List.mem_iff_getElem.mpr ⟨j, by rw [hlen2]; exact hj, ?_⟩
            rw [hget2 j hj, if_neg haj, if_neg hfj, hjo]
      show tblGet
        (mdSetFlag (mdSetAddr (mdSetAddr p.md (p.objects[p.ffi - 1]) addr) o (p.ffi - 1))
          o false) o' = none
      rw [tblGet_mdSetFlag, if_neg hno, tblGet_mdSetAddr, if_neg hno,
        tblGet_mdSetAddr, if_neg hnd, hdom o' hnp]

theorem inv_runPoolOp (p : MemPool) (op : PoolOp) (hinv : p.Inv)
    (hleg : legalPoolOp p op = true) : (runPoolOp p op).Inv := by
  cases op with
  | useOp =>
      by_cases hc : p.objects.length ≤ p.ffi ∧ p.growBy = 0
      · have herr : p.use = .error "MemPool is at capacity" := by
          simp [MemPool.use, hc]
        simp [runPoolOp, herr]
        exact hinv
      · obtain ⟨o, p', hok, -, hinv', -⟩ := use_ok p hinv hc
        simp [runPoolOp, hok]
        exact hinv'
  | freeOp o =>
      have := free_ok p hinv o hleg
      exact this.2.1

theorem inv_runPoolOps (p : MemPool) (ops : List PoolOp) (hinv : p.Inv)
    (hleg : legalPoolSeq p ops = true) : (runPoolOps p ops).Inv := by
  induction ops generalizing p with
  | nil => exact hinv
  | cons op rest ih =>
      rw [legalPoolSeq, Bool.and_eq_true] at hleg
      exact ih (runPoolOp p op) (inv_runPoolOp p op hinv hleg.1) hleg.2

/-- Under the invariant, the in-use objects are exactly those stored at
indices `[0, ffi)`. -/
theorem inv_inUse_take (p : MemPool) (h : p.Inv) (o : Nat) :
    ((tblGet p.md o).map fun m => m.2).getD false = true ↔
      o ∈ p.objects.take p.ffi := by
  obtain ⟨hffi, hbound, haddr, hdom⟩ := h
  constructor
  · intro hl
    have hmem : o ∈ p.objects := by
      by_contra hn
      rw [hdom o hn] at hl
      simp at hl
    obtain ⟨i, hi, hio⟩ := List.mem_iff_getElem.mp hmem
    have hia := haddr i hi
    rw [hio] at hia
    rw [hia] at hl
    have hilt : i < p.ffi := by simpa using hl
    have hbt : i < (p.objects.take p.ffi).length := by
      rw [List.length_take]
      omega
    refine List.mem_iff_getElem.mpr ⟨i, hbt, ?_⟩
    rw [List.getElem_take]
    exact hio
  · intro hm
    obtain ⟨i, hb, hio⟩ := List.mem_iff_getElem.mp hm
    have hbt : i < p.ffi := by
      have := hb
      rw [List.length_take] at this
      omega
    have hilen : i < p.objects.length := by
      have := hb
      rw [List.length_take] at this
      omega
    rw [List.getElem_take] at hio
    rw [← hio, haddr i hilen]
    simp [hbt]

/-- **C9**: after every `use`/`free` sequence in which `free` is applied
only to in-use pool objects, the pool satisfies: `size = inUse + avail`;
the in-use objects are exactly those stored at internal indices
`[0, inUse)`; `use()` returns an object that is not currently in use,
growing the backing array by `growBy` exactly when it was full and
failing only when the pool is exhausted with `growBy = 0`; and `free()`
on a non-member returns `false` and leaves the pool unchanged. -/
theorem c9_mempool_invariants (size gb : Nat) (ops : List PoolOp) (p : MemPool)
    (hops : legalPoolSeq (MemPool.init size gb) ops = true)
    (hp : p = runPoolOps (MemPool.init size gb) ops) :
    p.size = p.inUse + p.avail ∧
    (∀ o, ((tblGet p.md o).map fun m => m.2).getD false = true ↔
      o ∈ p.objects.take p.inUse) ∧
    (p.size ≤ p.inUse ∧ p.growBy = 0 → p.use = .error "MemPool is at capacity") ∧
    (¬(p.size ≤ p.inUse ∧ p.growBy = 0) →
      ∃ o p', p.use = .ok (o, p') ∧
        ((tblGet p.md o).map fun m => m.2).getD false = false ∧
        (p.size ≤ p.inUse → p'.size = p.size + p.growBy) ∧
        (p.inUse < p.size → p'.objects = p.objects)) ∧
    (∀ o, tblGet p.md o = none → p.free o = (false, p)) := by
  have hinv : p.Inv := hp ▸ inv_runPoolOps _ ops (inv_poolInit size gb) hops
  refine ⟨?_, ?_, ?_, ?_, ?_⟩
  · have h1 := hinv.1
    show p.objects.length = p.ffi + (p.objects.length - p.ffi)
    omega
  · intro o
    exact inv_inUse_take p hinv o
  · intro hc
    have hcd : p.objects.length ≤ p.ffi ∧ p.growBy = 0 := hc
    show MemPool.use p = _
    rw [MemPool.use, if_pos hcd]
  · intro hnc
    obtain ⟨o, p', hok, hflag, hinv', hffi', hgrow, hsame⟩ := use_ok p hinv hnc
    exact ⟨o, p', hok, hflag, hgrow, hsame⟩
  · intro o ho
    show MemPool.free p o = _
    rw [MemPool.free]
    rw [ho]

/-- Witness for `c9_mempool_invariants`: a pool of size 2 with `growBy`
1, after a legal `use` then `free` of the object it returned. -/
theorem c9_mempool_invariants_witness :
    (runPoolOps (MemPool.init 2 1) [.useOp, .freeOp 0]).size =
      (runPoolOps (MemPool.init 2 1) [.useOp, .freeOp 0]).inUse +
        (runPoolOps (MemPool.init 2 1) [.useOp, .freeOp 0]).avail :=
  (c9_mempool_invariants 2 1 [.useOp, .freeOp 0]
    (runPoolOps (MemPool.init 2 1) [.useOp, .freeOp 0]) (by decide) rfl).1

end Raxis
